import Mathlib

/-!
Verification of the batsmt Tseitin transformer and congruence-closure
harness against its specification.

The Rust sources embedded here:
* `src/tseitin/src/lib.rs` — the simplifier (`SimpStruct::simplify_rec`,
  `flatten_conn`), the term-to-literal mapping (`LitMapB::term_to_lit`)
  and the clausifier (`Tseitin::clauses`, `Tseitin::clear`).
* `src/cc/tests/test_cc.rs` — the property-test harness comparing the
  incremental CC with the naive CC (the CC implementations themselves,
  `cc.rs` and `naive_cc.rs`, are not part of the sources; they are
  modelled from the specification where needed).

Terms are hash-consed in the source (structural equality coincides with
pointer/id equality), so they are embedded as a plain inductive type with
structural equality.  The `View` classification of
`Ctx::view_as_formula` is represented directly by the constructors.
`View::Atom` covers both bare constants (`AstView::Const`/`Index`,
here `var`) and applications (`AstView::App`, here `app`).
Partial operations (Rust `panic!`/`assert!`/index-out-of-bounds) are
embedded with `Option`, `none` meaning an abort.
-/

inductive Term where
  | boolc : Bool → Term
  | tybool : Term
  | var : Nat → Bool → Term
  | app : Term → List Term → Bool → Term
  | not : Term → Term
  | and : List Term → Term
  | or : List Term → Term
  | imply : List Term → Term
  | eq : Term → Term → Term
  | distinct : List Term → Term
  | ite : Term → Term → Term → Term

mutual

def Term.beq : Term → Term → Bool
  | .boolc a, .boolc b => a == b
  | .tybool, .tybool => true
  | .var m bm, .var n bn => m == n && bm == bn
  | .app f as bf, .app g bs bg => Term.beq f g && Term.beqL as bs && bf == bg
  | .not a, .not b => Term.beq a b
  | .and as, .and bs => Term.beqL as bs
  | .or as, .or bs => Term.beqL as bs
  | .imply as, .imply bs => Term.beqL as bs
  | .eq a b, .eq c d => Term.beq a c && Term.beq b d
  | .distinct as, .distinct bs => Term.beqL as bs
  | .ite a b c, .ite d e f => Term.beq a d && Term.beq b e && Term.beq c f
  | _, _ => false

def Term.beqL : List Term → List Term → Bool
  | [], [] => true
  | a :: as, b :: bs => Term.beq a b && Term.beqL as bs
  | _, _ => false

end

mutual

theorem Term.eq_of_beq : ∀ a b : Term, Term.beq a b = true → a = b
  | .boolc a, .boolc b => by simp [Term.beq]
  | .tybool, .tybool => by simp
  | .var m bm, .var n bn => by
      simp only [Term.beq, Bool.and_eq_true, beq_iff_eq]
      intro h
      rw [h.1, h.2]
  | .app f as bf, .app g bs bg => by
      intro h
      simp only [Term.beq, Bool.and_eq_true, beq_iff_eq] at h
      rw [Term.eq_of_beq f g h.1.1, Term.eqL_of_beqL as bs h.1.2, h.2]
  | .not a, .not b => by
      intro h
      rw [Term.eq_of_beq a b h]
  | .and as, .and bs => by
      intro h
      rw [Term.eqL_of_beqL as bs h]
  | .or as, .or bs => by
      intro h
      rw [Term.eqL_of_beqL as bs h]
  | .imply as, .imply bs => by
      intro h
      rw [Term.eqL_of_beqL as bs h]
  | .eq a b, .eq c d => by
      intro h
      simp only [Term.beq, Bool.and_eq_true] at h
      rw [Term.eq_of_beq a c h.1, Term.eq_of_beq b d h.2]
  | .distinct as, .distinct bs => by
      intro h
      rw [Term.eqL_of_beqL as bs h]
  | .ite a b c, .ite d e f => by
      intro h
      simp only [Term.beq, Bool.and_eq_true] at h
      rw [Term.eq_of_beq a d h.1.1, Term.eq_of_beq b e h.1.2, Term.eq_of_beq c f h.2]
  | .boolc _, .tybool | .boolc _, .var _ _ | .boolc _, .app _ _ _ | .boolc _, .not _
  | .boolc _, .and _ | .boolc _, .or _ | .boolc _, .imply _ | .boolc _, .eq _ _
  | .boolc _, .distinct _ | .boolc _, .ite _ _ _ | .tybool, .boolc _ | .tybool, .var _ _
  | .tybool, .app _ _ _ | .tybool, .not _ | .tybool, .and _ | .tybool, .or _
  | .tybool, .imply _ | .tybool, .eq _ _ | .tybool, .distinct _ | .tybool, .ite _ _ _
  | .var _ _, .boolc _ | .var _ _, .tybool | .var _ _, .app _ _ _ | .var _ _, .not _
  | .var _ _, .and _ | .var _ _, .or _ | .var _ _, .imply _ | .var _ _, .eq _ _
  | .var _ _, .distinct _ | .var _ _, .ite _ _ _ | .app _ _ _, .boolc _ | .app _ _ _, .tybool
  | .app _ _ _, .var _ _ | .app _ _ _, .not _ | .app _ _ _, .and _ | .app _ _ _, .or _
  | .app _ _ _, .imply _ | .app _ _ _, .eq _ _ | .app _ _ _, .distinct _ | .app _ _ _, .ite _ _ _
  | .not _, .boolc _ | .not _, .tybool | .not _, .var _ _ | .not _, .app _ _ _
  | .not _, .and _ | .not _, .or _ | .not _, .imply _ | .not _, .eq _ _
  | .not _, .distinct _ | .not _, .ite _ _ _ | .and _, .boolc _ | .and _, .tybool
  | .and _, .var _ _ | .and _, .app _ _ _ | .and _, .not _ | .and _, .or _
  | .and _, .imply _ | .and _, .eq _ _ | .and _, .distinct _ | .and _, .ite _ _ _
  | .or _, .boolc _ | .or _, .tybool | .or _, .var _ _ | .or _, .app _ _ _
  | .or _, .not _ | .or _, .and _ | .or _, .imply _ | .or _, .eq _ _
  | .or _, .distinct _ | .or _, .ite _ _ _ | .imply _, .boolc _ | .imply _, .tybool
  | .imply _, .var _ _ | .imply _, .app _ _ _ | .imply _, .not _ | .imply _, .and _
  | .imply _, .or _ | .imply _, .eq _ _ | .imply _, .distinct _ | .imply _, .ite _ _ _
  | .eq _ _, .boolc _ | .eq _ _, .tybool | .eq _ _, .var _ _ | .eq _ _, .app _ _ _
  | .eq _ _, .not _ | .eq _ _, .and _ | .eq _ _, .or _ | .eq _ _, .imply _
  | .eq _ _, .distinct _ | .eq _ _, .ite _ _ _ | .distinct _, .boolc _ | .distinct _, .tybool
  | .distinct _, .var _ _ | .distinct _, .app _ _ _ | .distinct _, .not _ | .distinct _, .and _
  | .distinct _, .or _ | .distinct _, .imply _ | .distinct _, .eq _ _ | .distinct _, .ite _ _ _
  | .ite _ _ _, .boolc _ | .ite _ _ _, .tybool | .ite _ _ _, .var _ _ | .ite _ _ _, .app _ _ _
  | .ite _ _ _, .not _ | .ite _ _ _, .and _ | .ite _ _ _, .or _ | .ite _ _ _, .imply _
  | .ite _ _ _, .eq _ _ | .ite _ _ _, .distinct _
    => by simp [Term.beq]

theorem Term.eqL_of_beqL : ∀ as bs : List Term, Term.beqL as bs = true → as = bs
  | [], [] => by simp
  | a :: as, b :: bs => by
      intro h
      simp only [Term.beqL, Bool.and_eq_true] at h
      rw [Term.eq_of_beq a b h.1, Term.eqL_of_beqL as bs h.2]
  | [], _ :: _ => by simp [Term.beqL]
  | _ :: _, [] => by simp [Term.beqL]

end

mutual

theorem Term.beq_refl : ∀ t : Term, Term.beq t t = true
  | .boolc a => by simp [Term.beq]
  | .tybool => by simp [Term.beq]
  | .var n bn => by simp [Term.beq]
  | .app f as bf => by simp [Term.beq, Term.beq_refl f, Term.beqL_refl as]
  | .not a => by simp [Term.beq, Term.beq_refl a]
  | .and as => by simp [Term.beq, Term.beqL_refl as]
  | .or as => by simp [Term.beq, Term.beqL_refl as]
  | .imply as => by simp [Term.beq, Term.beqL_refl as]
  | .eq a b => by simp [Term.beq, Term.beq_refl a, Term.beq_refl b]
  | .distinct as => by simp [Term.beq, Term.beqL_refl as]
  | .ite a b c => by simp [Term.beq, Term.beq_refl a, Term.beq_refl b, Term.beq_refl c]

theorem Term.beqL_refl : ∀ ts : List Term, Term.beqL ts ts = true
  | [] => by simp [Term.beqL]
  | t :: ts => by simp [Term.beqL, Term.beq_refl t, Term.beqL_refl ts]

end

instance : DecidableEq Term := fun a b =>
  decidable_of_iff (Term.beq a b = true)
    ⟨Term.eq_of_beq a b, fun h => h ▸ Term.beq_refl a⟩

/-! Size and `imply`-count measures used to justify termination of the
simplifier (the source recursion terminates because every recursive call
is on a subterm, except the `imply` case which recurses on a rebuilt
`or` containing one `imply` node fewer). -/

mutual

def Term.size : Term → Nat
  | .boolc _ => 1
  | .tybool => 1
  | .var _ _ => 1
  | .app f as _ => 1 + Term.size f + Term.sizeL as
  | .not a => 1 + Term.size a
  | .and as => 1 + Term.sizeL as
  | .or as => 1 + Term.sizeL as
  | .imply as => 1 + Term.sizeL as
  | .eq a b => 1 + Term.size a + Term.size b
  | .distinct as => 1 + Term.sizeL as
  | .ite a b c => 1 + Term.size a + Term.size b + Term.size c

def Term.sizeL : List Term → Nat
  | [] => 0
  | t :: ts => Term.size t + Term.sizeL ts

end

mutual

def Term.nImply : Term → Nat
  | .boolc _ => 0
  | .tybool => 0
  | .var _ _ => 0
  | .app f as _ => Term.nImply f + Term.nImplyL as
  | .not a => Term.nImply a
  | .and as => Term.nImplyL as
  | .or as => Term.nImplyL as
  | .imply as => 1 + Term.nImplyL as
  | .eq a b => Term.nImply a + Term.nImply b
  | .distinct as => Term.nImplyL as
  | .ite a b c => Term.nImply a + Term.nImply b + Term.nImply c

def Term.nImplyL : List Term → Nat
  | [] => 0
  | t :: ts => Term.nImply t + Term.nImplyL ts

end

theorem Term.size_pos : ∀ t : Term, 1 ≤ t.size := by
  intro t
  cases t <;> simp [Term.size] <;> omega

theorem Term.sizeL_mem_le {t : Term} : ∀ {ts : List Term}, t ∈ ts → t.size ≤ Term.sizeL ts := by
  intro ts h
  induction ts with
  | nil => cases h
  | cons a ts ih =>
      rcases List.mem_cons.mp h with rfl | h2
      · simp only [Term.sizeL]
        omega
      · have := ih h2
        simp only [Term.sizeL]
        omega

theorem Term.nImplyL_mem_le {t : Term} : ∀ {ts : List Term}, t ∈ ts → t.nImply ≤ Term.nImplyL ts := by
  intro ts h
  induction ts with
  | nil => cases h
  | cons a ts ih =>
      rcases List.mem_cons.mp h with rfl | h2
      · simp only [Term.nImplyL]
        omega
      · have := ih h2
        simp only [Term.nImplyL]
        omega

/-! ## `flatten_conn` (src/tseitin/src/lib.rs lines 133-157)

`flatten_conn_rec` pushes each element of `args` into the output; a child
that is the same connective is flattened recursively, and the neutral
element (`true` for `and`, `false` for `or`) is skipped.  `flatten_conn`
then sorts (the source sorts by hash-consed term id; a fixed total order
on terms, `Term.cmp`, stands in for the id order) and removes adjacent
duplicates (`Vec::dedup`). -/

inductive Conn where
  | and
  | or
  deriving DecidableEq

def flattenConnRec (conn : Conn) : List Term → List Term
  | [] => []
  | t :: ts =>
    (match conn, t with
      | .and, .and args2 => flattenConnRec .and args2
      | .or, .or args2 => flattenConnRec .or args2
      | .and, .boolc true => []
      | .or, .boolc false => []
      | _, _ => [t]) ++ flattenConnRec conn ts
termination_by l => Term.sizeL l
decreasing_by
  all_goals simp only [Term.sizeL, Term.size]
  all_goals try omega
  all_goals (have h := Term.size_pos t; omega)

def Term.ctorIdx : Term → Nat
  | .boolc _ => 0
  | .tybool => 1
  | .var _ _ => 2
  | .app _ _ _ => 3
  | .not _ => 4
  | .and _ => 5
  | .or _ => 6
  | .imply _ => 7
  | .eq _ _ => 8
  | .distinct _ => 9
  | .ite _ _ _ => 10

mutual

def Term.cmp : Term → Term → Ordering
  | .boolc a, .boolc b => compare a b
  | .tybool, .tybool => Ordering.eq
  | .var m bm, .var n bn => (compare m n).then (compare bm bn)
  | .app f as bf, .app g bs bg => ((Term.cmp f g).then (Term.cmpL as bs)).then (compare bf bg)
  | .not a, .not b => Term.cmp a b
  | .and as, .and bs => Term.cmpL as bs
  | .or as, .or bs => Term.cmpL as bs
  | .imply as, .imply bs => Term.cmpL as bs
  | .eq a b, .eq c d => (Term.cmp a c).then (Term.cmp b d)
  | .distinct as, .distinct bs => Term.cmpL as bs
  | .ite a b c, .ite d e f => ((Term.cmp a d).then (Term.cmp b e)).then (Term.cmp c f)
  | a, b => compare a.ctorIdx b.ctorIdx

def Term.cmpL : List Term → List Term → Ordering
  | [], [] => Ordering.eq
  | [], _ :: _ => Ordering.lt
  | _ :: _, [] => Ordering.gt
  | a :: as, b :: bs => (Term.cmp a b).then (Term.cmpL as bs)

end

def termLe (a b : Term) : Prop := Term.cmp a b ≠ Ordering.gt

instance : DecidableRel termLe := fun a b => by
  unfold termLe
  infer_instance

/-- Adjacent-duplicate removal, as Rust `Vec::dedup`. -/
def dedupAdj : List Term → List Term
  | [] => []
  | [a] => [a]
  | a :: b :: rest => if a = b then dedupAdj (b :: rest) else a :: dedupAdj (b :: rest)

/-- The `v.sort_unstable(); v.dedup();` tail of `flatten_conn`. -/
def sortDedup (l : List Term) : List Term := dedupAdj (List.insertionSort termLe l)

def flattenConn (conn : Conn) (args : List Term) : List Term :=
  sortDedup (flattenConnRec conn args)

theorem mem_dedupAdj : ∀ {l : List Term} {x : Term}, x ∈ dedupAdj l ↔ x ∈ l
  | [], x => by simp [dedupAdj]
  | [a], x => by simp [dedupAdj]
  | a :: b :: rest, x => by
      simp only [dedupAdj]
      by_cases hab : a = b
      · rw [if_pos hab]
        rw [mem_dedupAdj]
        subst hab
        simp
      · rw [if_neg hab]
        simp only [List.mem_cons]
        rw [mem_dedupAdj]
        simp

theorem dedupAdj_sublist : ∀ l : List Term, (dedupAdj l).Sublist l
  | [] => by simp [dedupAdj]
  | [a] => by simp [dedupAdj]
  | a :: b :: rest => by
      by_cases hab : a = b
      · subst hab
        simp only [dedupAdj, if_pos rfl]
        exact (dedupAdj_sublist (a :: rest)).cons a
      · simp only [dedupAdj, if_neg hab]
        exact (dedupAdj_sublist (b :: rest)).cons₂ a

theorem mem_sortDedup {l : List Term} {x : Term} : x ∈ sortDedup l ↔ x ∈ l := by
  unfold sortDedup
  rw [mem_dedupAdj]
  exact (List.perm_insertionSort termLe l).mem_iff

theorem Term.sizeL_eq_sum : ∀ l : List Term, Term.sizeL l = (l.map Term.size).sum
  | [] => rfl
  | t :: ts => by simp [Term.sizeL, Term.sizeL_eq_sum ts]

theorem Term.nImplyL_eq_sum : ∀ l : List Term, Term.nImplyL l = (l.map Term.nImply).sum
  | [] => rfl
  | t :: ts => by simp [Term.nImplyL, Term.nImplyL_eq_sum ts]

theorem Term.sizeL_sublist {l1 l2 : List Term} (h : l1.Sublist l2) :
    Term.sizeL l1 ≤ Term.sizeL l2 := by
  rw [Term.sizeL_eq_sum, Term.sizeL_eq_sum]
  exact (h.map Term.size).sum_le_sum (by intro x hx; positivity)

theorem Term.nImplyL_sublist {l1 l2 : List Term} (h : l1.Sublist l2) :
    Term.nImplyL l1 ≤ Term.nImplyL l2 := by
  rw [Term.nImplyL_eq_sum, Term.nImplyL_eq_sum]
  exact (h.map Term.nImply).sum_le_sum (by intro x hx; positivity)

theorem Term.sizeL_perm {l1 l2 : List Term} (h : l1.Perm l2) :
    Term.sizeL l1 = Term.sizeL l2 := by
  rw [Term.sizeL_eq_sum, Term.sizeL_eq_sum]
  exact (h.map Term.size).sum_eq

theorem Term.nImplyL_perm {l1 l2 : List Term} (h : l1.Perm l2) :
    Term.nImplyL l1 = Term.nImplyL l2 := by
  rw [Term.nImplyL_eq_sum, Term.nImplyL_eq_sum]
  exact (h.map Term.nImply).sum_eq

theorem Term.sizeL_sortDedup (l : List Term) : Term.sizeL (sortDedup l) ≤ Term.sizeL l := by
  unfold sortDedup
  calc Term.sizeL (dedupAdj (List.insertionSort termLe l))
      ≤ Term.sizeL (List.insertionSort termLe l) :=
        Term.sizeL_sublist (dedupAdj_sublist _)
    _ = Term.sizeL l := Term.sizeL_perm (List.perm_insertionSort termLe l)

theorem Term.nImplyL_sortDedup (l : List Term) : Term.nImplyL (sortDedup l) ≤ Term.nImplyL l := by
  unfold sortDedup
  calc Term.nImplyL (dedupAdj (List.insertionSort termLe l))
      ≤ Term.nImplyL (List.insertionSort termLe l) :=
        Term.nImplyL_sublist (dedupAdj_sublist _)
    _ = Term.nImplyL l := Term.nImplyL_perm (List.perm_insertionSort termLe l)

theorem Term.sizeL_append (l1 l2 : List Term) :
    Term.sizeL (l1 ++ l2) = Term.sizeL l1 + Term.sizeL l2 := by
  induction l1 with
  | nil => simp [Term.sizeL]
  | cons a l ih =>
      show Term.size a + Term.sizeL (l ++ l2) = Term.size a + Term.sizeL l + Term.sizeL l2
      rw [ih]
      omega

theorem Term.nImplyL_append (l1 l2 : List Term) :
    Term.nImplyL (l1 ++ l2) = Term.nImplyL l1 + Term.nImplyL l2 := by
  induction l1 with
  | nil => simp [Term.nImplyL]
  | cons a l ih =>
      show Term.nImply a + Term.nImplyL (l ++ l2) = Term.nImply a + Term.nImplyL l + Term.nImplyL l2
      rw [ih]
      omega

theorem sizeL_flattenConnRec (conn : Conn) (l : List Term) :
    Term.sizeL (flattenConnRec conn l) ≤ Term.sizeL l := by
  induction conn, l using flattenConnRec.induct with
  | case1 conn => simp [flattenConnRec]
  | case2 conn t ts harg hrest =>
      have hpos := Term.size_pos t
      cases conn <;> cases t <;>
        try (simp only [flattenConnRec, Term.sizeL_append, Term.sizeL, Term.size] at *; omega)
      all_goals (rename_i b; cases b <;>
        simp only [flattenConnRec, Term.sizeL_append, Term.sizeL, Term.size] at * <;> omega)

theorem nImplyL_flattenConnRec (conn : Conn) (l : List Term) :
    Term.nImplyL (flattenConnRec conn l) ≤ Term.nImplyL l := by
  induction conn, l using flattenConnRec.induct with
  | case1 conn => simp [flattenConnRec]
  | case2 conn t ts harg hrest =>
      cases conn <;> cases t <;>
        try (simp only [flattenConnRec, Term.nImplyL_append, Term.nImplyL, Term.nImply] at *; omega)
      all_goals (rename_i b; cases b <;>
        simp only [flattenConnRec, Term.nImplyL_append, Term.nImplyL, Term.nImply] at * <;> omega)

theorem sizeL_flattenConn (conn : Conn) (l : List Term) :
    Term.sizeL (flattenConn conn l) ≤ Term.sizeL l :=
  le_trans (Term.sizeL_sortDedup _) (sizeL_flattenConnRec conn l)

theorem nImplyL_flattenConn (conn : Conn) (l : List Term) :
    Term.nImplyL (flattenConn conn l) ≤ Term.nImplyL l :=
  le_trans (Term.nImplyL_sortDedup _) (nImplyL_flattenConnRec conn l)

/-! ## The simplifier (src/tseitin/src/lib.rs lines 159-272, `SimpStruct::simplify_rec`)

The per-term cache `map: ast::HashMap<AST,AST>` is embedded as an
association list threaded through the recursion; `simplify_rec` first
consults the cache and otherwise computes (`simplifyStep`) and inserts
the result.  `assert!`/`panic!`/indexing aborts are `none`. -/

abbrev Cache := List (Term × Term)

def cacheGet : Cache → Term → Option Term
  | [], _ => none
  | (k, v) :: c, t => if k = t then some v else cacheGet c t

def cacheIns (c : Cache) (t u : Term) : Cache := (t, u) :: c

/-- The `i < j` double loop of the `distinct(t1…tn) → and_{i<j} t_i != t_j`
branch, building `not (eq t_i t_j)` in loop order. -/
def pairsDiseq : List Term → List Term
  | [] => []
  | x :: xs => xs.map (fun y => Term.not (Term.eq x y)) ++ pairsDiseq xs

theorem lex2 {a b d e : Nat}
    (h : a < d ∨ (a = d ∧ b < e)) :
    Prod.Lex (· < ·) (· < ·) (a, b) (d, e) := by
  rcases h with h | ⟨rfl, h⟩
  · exact Prod.Lex.left _ _ h
  · exact Prod.Lex.right _ h

theorem lex3 {a b c d e f : Nat}
    (h : a < d ∨ (a = d ∧ (b < e ∨ (b = e ∧ c < f)))) :
    Prod.Lex (· < ·) (Prod.Lex (· < ·) (· < ·)) (a, b, c) (d, e, f) := by
  rcases h with h | ⟨rfl, h | ⟨rfl, h⟩⟩
  · exact Prod.Lex.left _ _ h
  · exact Prod.Lex.right _ (Prod.Lex.left _ _ h)
  · exact Prod.Lex.right _ (Prod.Lex.right _ h)

theorem Term.nImplyL_map_not : ∀ l : List Term, Term.nImplyL (l.map Term.not) = Term.nImplyL l
  | [] => rfl
  | a :: l => by
      simp only [List.map_cons, Term.nImplyL, Term.nImply]
      rw [Term.nImplyL_map_not l]

mutual

def simplifyRec (c : Cache) (t : Term) : Option (Term × Cache) :=
  match cacheGet c t with
  | some u => some (u, c)
  | none =>
    match simplifyStep c t with
    | none => none
    | some (u, c1) => some (u, cacheIns c1 t u)
termination_by (Term.nImply t, Term.size t, 1)
decreasing_by
  apply lex3
  omega

def simplifyStep (c : Cache) (t : Term) : Option (Term × Cache) :=
  match t with
  | .boolc b => some (.boolc b, c)
  | .tybool => some (.tybool, c)
  | .distinct [_] => some (.boolc true, c)
  | .distinct [a, b] =>
      match simplifyRec c a with
      | none => none
      | some (a1, c1) =>
        match simplifyRec c1 b with
        | none => none
        | some (b1, c2) => some (.not (.eq a1 b1), c2)
  | .distinct [] => none
  | .distinct args =>
      match simplifyList c args with
      | none => none
      | some (args1, c1) => some (.and (pairsDiseq args1), c1)
  | .eq a b =>
      if a = b then some (.boolc true, c)
      else
        match simplifyRec c a with
        | none => none
        | some (a1, c1) =>
          match simplifyRec c1 b with
          | none => none
          | some (b1, c2) => some (.eq a1 b1, c2)
  | .var n bs => some (.var n bs, c)
  | .app f args bs =>
      match simplifyRec c f with
      | none => none
      | some (f1, c1) =>
        match simplifyList c1 args with
        | none => none
        | some (args1, c2) => some (.app f1 args1 bs, c2)
  | .not a =>
      match simplifyRec c a with
      | none => none
      | some (u, c1) =>
        match u with
        | .boolc b => some (.boolc (!b), c1)
        | .not v => some (v, c1)
        | _ => some (.not u, c1)
  | .and args0 =>
      match simplifyList c (flattenConn .and args0) with
      | none => none
      | some (args1, c1) =>
        if args1.any (fun u => u = .boolc false) then some (.boolc false, c1)
        else some (.and args1, c1)
  | .or args0 =>
      match simplifyList c (flattenConn .or args0) with
      | none => none
      | some (args1, c1) =>
        if args1.any (fun u => u = .boolc true) then some (.boolc true, c1)
        else some (.or args1, c1)
  | .imply args0 =>
      if args0.length < 2 then none
      else
        simplifyRec c
          (.or ((args0.take (args0.length - 1)).map Term.not ++ args0.drop (args0.length - 1)))
  | .ite a b c0 =>
      match simplifyRec c a with
      | none => none
      | some (a1, c1) =>
        match simplifyRec c1 b with
        | none => none
        | some (b1, c2) =>
          match simplifyRec c2 c0 with
          | none => none
          | some (c01, c3) =>
            match a1 with
            | .boolc true => some (b1, c3)
            | .boolc false => some (c01, c3)
            | _ => if b1 = c01 then some (b1, c3) else some (.ite a1 b1 c01, c3)
termination_by (Term.nImply t, Term.size t, 0)
decreasing_by
  all_goals apply lex3
  all_goals simp only [Term.nImply, Term.nImplyL, Term.size, Term.sizeL, true_and]
  all_goals try omega
  · have h1 := sizeL_flattenConn Conn.and args0
    have h2 := nImplyL_flattenConn Conn.and args0
    omega
  · have h1 := sizeL_flattenConn Conn.or args0
    have h2 := nImplyL_flattenConn Conn.or args0
    omega
  · have h0 : (args0.take (args0.length - 1)) ++ (args0.drop (args0.length - 1)) = args0 :=
      List.take_append_drop _ _
    have h1 := Term.nImplyL_append ((args0.take (args0.length - 1)).map Term.not)
      (args0.drop (args0.length - 1))
    have h2 := Term.nImplyL_map_not (args0.take (args0.length - 1))
    have h3 := Term.nImplyL_append (args0.take (args0.length - 1)) (args0.drop (args0.length - 1))
    rw [h0] at h3
    omega

def simplifyList (c : Cache) : List Term → Option (List Term × Cache)
  | [] => some ([], c)
  | t :: ts =>
      match simplifyRec c t with
      | none => none
      | some (u, c1) =>
        match simplifyList c1 ts with
        | none => none
        | some (us, c2) => some (u :: us, c2)
termination_by l => (Term.nImplyL l, Term.sizeL l, l.length + 2)
decreasing_by
  · apply lex3
    simp only [Term.nImplyL, Term.sizeL, true_and]
    omega
  · apply lex3
    have := Term.size_pos t
    simp only [Term.nImplyL, Term.sizeL, List.length_cons, true_and]
    omega

end

/-! ## Literals and the term-to-literal mapping
(src/tseitin/src/lib.rs lines 84-123, `LitMapB::term_to_lit`)

`TheoryLit` lives in `batsmt_theory`, which is not under the sources;
modelled from the spec: a literal is an atom term plus a sign, tagged
either pure-boolean (`TheoryLit::new_b`, glossary "pure-Boolean literal
... handled entirely by the SAT solver") or theory
(`TheoryLit::new_t`, "theory literal ... whose truth the CC must
track"); `!` flips the sign.  `LitMap::unfold_not` is likewise modelled
from the spec ("strips a leading `not` (pushing polarity into the
sign)"), stripping repeatedly. -/

inductive LKind where
  | b
  | t
  deriving DecidableEq

structure TLit where
  kind : LKind
  atom : Term
  sign : Bool
  deriving DecidableEq

def TLit.negate (l : TLit) : TLit := ⟨l.kind, l.atom, !l.sign⟩

/-- Modelled from the spec: `LitMap::unfold_not` (batsmt_theory is not
under the sources): strip leading `not`s, pushing polarity into the sign. -/
def unfoldNot : Term → Bool → Term × Bool
  | .not u, sign => unfoldNot u (!sign)
  | .boolc b, sign => (.boolc b, sign)
  | .tybool, sign => (.tybool, sign)
  | .var n bs, sign => (.var n bs, sign)
  | .app f args bs, sign => (.app f args bs, sign)
  | .and args, sign => (.and args, sign)
  | .or args, sign => (.or args, sign)
  | .imply args, sign => (.imply args, sign)
  | .eq a b, sign => (.eq a b, sign)
  | .distinct args, sign => (.distinct args, sign)
  | .ite a b c, sign => (.ite a b c, sign)

/-- `LitMapB::term_to_lit` (lines 94-122).  `panic!` branches are `none`. -/
def termToLit (t0 : Term) : Option TLit :=
  match unfoldNot t0 true with
  | (t, sign) =>
    match t with
    | .boolc b => some ⟨.b, .boolc b, sign⟩
    | .and args => some ⟨.t, .and args, sign⟩
    | .or args => some ⟨.t, .or args, sign⟩
    | .imply args => some ⟨.t, .imply args, sign⟩
    | .distinct [a, b] => some (TLit.negate ⟨.t, .eq a b, sign⟩)
    | .distinct args => some ⟨.b, .distinct args, sign⟩
    | .tybool => none
    | .not _ => none
    | .var n bs => some ⟨.t, .var n bs, sign⟩
    | .app f args bs => some ⟨.t, .app f args bs, sign⟩
    | .eq a b => some ⟨.t, .eq a b, sign⟩
    | .ite a b c => some ⟨.t, .ite a b c, sign⟩

/-! ## Clause emission per visited subterm
(src/tseitin/src/lib.rs lines 336-445, the closure inside
`Tseitin::clauses`).

Only the clause pushes into `cs` are modelled; the additions to the
literal set `lits` do not affect the emitted CNF.  The `Bool` cases emit
the unit clauses of lines 359-365; `View::Distinct` panics
("distinct post-simplification"); an `imply` with no arguments would
panic on `args[args.len()-1]`. -/

def nodeClauses (u : Term) : Option (List (List TLit)) :=
  match u with
  | .tybool => some []
  | .var _ _ => some []
  | .app _ _ _ => some []
  | .not _ => some []
  | .eq _ _ => some []
  | .boolc true => some [[⟨.b, .boolc true, true⟩]]
  | .boolc false => some [[⟨.b, .boolc false, false⟩]]
  | .ite a _ _ => (termToLit a).map (fun _ => [])
  | .and args => do
      let lits ← args.mapM termToLit
      let la ← termToLit (.and args)
      some ((lits.map (fun sub => [la.negate, sub])) ++ [lits.map TLit.negate ++ [la]])
  | .or args => do
      let lits ← args.mapM termToLit
      let lo ← termToLit (.or args)
      some ((lits.map (fun sub => [sub.negate, lo])) ++ [lits ++ [lo.negate]])
  | .imply args =>
      if h : args = [] then none
      else do
        let lastLit ← termToLit (args.getLast h)
        let initLits ← args.dropLast.mapM termToLit
        let lits := lastLit :: initLits.map TLit.negate
        let lo ← termToLit (.imply args)
        some ((lits.map (fun sub => [sub.negate, lo])) ++ [lits ++ [lo.negate]])
  | .distinct _ => none

/-! ## DAG traversal and the `Tseitin` state
(`Tseitin` struct lines 73-82; `clear` lines 301-307; `simplify` lines
309-317; `clauses` lines 319-455)

Modelled from the spec: `ast::iter_dag` (batsmt_core, not under the
sources) "traverses the simplified term's DAG exactly once (memoize via
a visited set)"; embedded as a depth-first traversal threading the
persistent visited set, calling the emission closure once for each
subterm not yet seen. -/

def tchildren : Term → List Term
  | .boolc _ => []
  | .tybool => []
  | .var _ _ => []
  | .app f args _ => f :: args
  | .not a => [a]
  | .and args => args
  | .or args => args
  | .imply args => args
  | .eq a b => [a, b]
  | .distinct args => args
  | .ite a b c => [a, b, c]

theorem sizeL_tchildren (t : Term) : Term.sizeL (tchildren t) < Term.size t := by
  cases t <;> (simp [tchildren, Term.sizeL, Term.size]; try omega)

mutual

def dagVisit (seen : List Term) (t : Term) : List Term × List Term :=
  if t ∈ seen then ([], seen)
  else
    match dagVisitList (t :: seen) (tchildren t) with
    | (vs, seen1) => (t :: vs, seen1)
termination_by (Term.size t, 0)
decreasing_by
  apply lex2
  have := sizeL_tchildren t
  omega

def dagVisitList (seen : List Term) : List Term → List Term × List Term
  | [] => ([], seen)
  | x :: xs =>
      match dagVisit seen x with
      | (vs1, seen1) =>
        match dagVisitList seen1 xs with
        | (vs2, seen2) => (vs1 ++ vs2, seen2)
termination_by l => (Term.sizeL l, l.length + 1)
decreasing_by
  all_goals apply lex2
  all_goals simp only [Term.sizeL, List.length_cons]
  all_goals omega

end

structure TseitinState where
  simpMap : Cache
  seen : List Term

namespace Tseitin

/-- `Tseitin::new` (lines 289-299). -/
def new : TseitinState := ⟨[], []⟩

/-- `Tseitin::clear` (lines 301-307): only the traversal state
(`self.iter.clear()`) is reset; the simplifier cache is kept. -/
def clear (s : TseitinState) : TseitinState := ⟨s.simpMap, []⟩

/-- `Tseitin::simplify` (lines 309-317). -/
def simplify (s : TseitinState) (t : Term) : Option (Term × TseitinState) :=
  match simplifyRec s.simpMap t with
  | none => none
  | some (u, c1) => some (u, ⟨c1, s.seen⟩)

/-- `Tseitin::clauses` (lines 319-455): simplify, traverse the DAG
emitting definitional clauses for unseen subterms, then emit the unit
clause `[top_lit]` for the simplified formula. -/
def clauses (s : TseitinState) (t : Term) : Option (List (List TLit) × TseitinState) := do
  let (u, c1) ← simplifyRec s.simpMap t
  match dagVisit s.seen u with
  | (vs, seen1) => do
    let css ← vs.mapM nodeClauses
    let top ← termToLit u
    some (css.flatten ++ [[top]], ⟨c1, seen1⟩)

end Tseitin

/-! ## Semantics

Satisfiability is the solver's notion: satisfiability modulo the theory
of equality over uninterpreted functions (the SAT solver plus the CC
theory; spec §1, §4.5).  A model interprets every term in a domain `D`
with designated distinct `true`/`false` points; formula-view
constructors are interpreted by their Boolean tables (truth of a term
being coincidence with the `true` point), equality by equality in `D`,
and atoms (`var`, `app`) freely.  A literal `(atom, sign)` holds when
the truth value of its atom equals the sign; pure-boolean and theory
literals over the same atom are mapped to the same SAT variable by the
literal map, so the tag does not affect satisfaction. -/

structure EModel where
  D : Type
  deq : DecidableEq D
  dtrue : D
  dfalse : D
  tf_ne : dtrue ≠ dfalse
  dtybool : D
  varI : Nat → D
  varBI : Nat → Bool
  appI : D → List D → D
  appBI : D → List D → Bool

def EModel.deqB (M : EModel) (d e : M.D) : Bool :=
  haveI := M.deq
  decide (d = e)

def EModel.isT (M : EModel) (d : M.D) : Bool := M.deqB d M.dtrue

def EModel.bool2d (M : EModel) (b : Bool) : M.D := if b then M.dtrue else M.dfalse

/-- Truth table of `imply(x₁,…,xₙ)`: `¬x₁ ∨ … ∨ ¬xₙ₋₁ ∨ xₙ`. -/
def implyEval : List Bool → Bool
  | [] => true
  | [b] => b
  | b :: rest => !b || implyEval rest

/-- Truth table of `distinct`: pairwise distinct values. -/
def EModel.distinctVals (M : EModel) : List M.D → Bool
  | [] => true
  | d :: ds => ds.all (fun e => !(M.deqB d e)) && M.distinctVals ds

mutual

def interp (M : EModel) : Term → M.D
  | .boolc b => M.bool2d b
  | .tybool => M.dtybool
  | .var n bs => if bs then M.bool2d (M.varBI n) else M.varI n
  | .app f args bs =>
      if bs then M.bool2d (M.appBI (interp M f) (interpL M args))
      else M.appI (interp M f) (interpL M args)
  | .not a => M.bool2d (!(M.isT (interp M a)))
  | .and args => M.bool2d ((interpL M args).all M.isT)
  | .or args => M.bool2d ((interpL M args).any M.isT)
  | .imply args => M.bool2d (implyEval ((interpL M args).map M.isT))
  | .eq a b => M.bool2d (M.deqB (interp M a) (interp M b))
  | .distinct args => M.bool2d (M.distinctVals (interpL M args))
  | .ite a b c => if M.isT (interp M a) then interp M b else interp M c

def interpL (M : EModel) : List Term → List M.D
  | [] => []
  | t :: ts => interp M t :: interpL M ts

end

def EModel.truthy (M : EModel) (t : Term) : Bool := M.isT (interp M t)

def litTrue (M : EModel) (l : TLit) : Bool := M.truthy l.atom == l.sign

def clauseTrue (M : EModel) (cl : List TLit) : Bool := cl.any (litTrue M)

def cnfTrue (M : EModel) (cnf : List (List TLit)) : Bool := cnf.all (clauseTrue M)

def satTerm (t : Term) : Prop := ∃ M : EModel, M.truthy t = true

def satCNF (cnf : List (List TLit)) : Prop := ∃ M : EModel, cnfTrue M cnf = true

theorem EModel.isT_bool2d (M : EModel) (b : Bool) : M.isT (M.bool2d b) = b := by
  cases b <;> simp [EModel.isT, EModel.bool2d, EModel.deqB] <;>
    haveI := M.deq <;> simp [decide_eq_true_eq]
  exact fun h => M.tf_ne h.symm

theorem interpL_eq_map (M : EModel) : ∀ l : List Term, interpL M l = l.map (interp M)
  | [] => rfl
  | t :: ts => by simp only [interpL, List.map_cons, interpL_eq_map M ts]

/-! ## Sorts and well-sortedness

The term manager stores an (optional) sort per term (`self.m.ty(&t)`,
preserved by the `mk_app` rebuild).  `Term.sortOf t = true` means `t`
is Boolean-sorted; `Term.ws` (well-sorted) demands that every term in a
Boolean position (argument of `not`/`and`/`or`/`imply`, condition of
`ite`) is Boolean-sorted and that the two `ite` branches share a sort —
the typing discipline the parser-produced DAG satisfies. -/

def Term.sortOf : Term → Bool
  | .boolc _ => true
  | .tybool => false
  | .var _ bs => bs
  | .app _ _ bs => bs
  | .not _ => true
  | .and _ => true
  | .or _ => true
  | .imply _ => true
  | .eq _ _ => true
  | .distinct _ => true
  | .ite _ b _ => Term.sortOf b

mutual

def Term.ws : Term → Bool
  | .boolc _ => true
  | .tybool => true
  | .var _ _ => true
  | .app f args _ => Term.ws f && Term.wsL args
  | .not a => Term.sortOf a && Term.ws a
  | .and args => Term.wsB args
  | .or args => Term.wsB args
  | .imply args => Term.wsB args
  | .eq a b => Term.ws a && Term.ws b
  | .distinct args => Term.wsL args
  | .ite a b c =>
      Term.sortOf a && Term.ws a && Term.ws b && Term.ws c && (Term.sortOf b == Term.sortOf c)

def Term.wsL : List Term → Bool
  | [] => true
  | t :: ts => Term.ws t && Term.wsL ts

def Term.wsB : List Term → Bool
  | [] => true
  | t :: ts => (Term.sortOf t && Term.ws t) && Term.wsB ts

end

/-! Basic truth-value equations. -/

theorem all_truthy_map (M : EModel) (args : List Term) :
    (args.map (interp M)).all M.isT = args.all M.truthy := by
  induction args with
  | nil => rfl
  | cons a l ih => simp [EModel.truthy, ih]

theorem any_truthy_map (M : EModel) (args : List Term) :
    (args.map (interp M)).any M.isT = args.any M.truthy := by
  induction args with
  | nil => rfl
  | cons a l ih => simp [EModel.truthy, ih]

theorem truthy_boolc (M : EModel) (b : Bool) : M.truthy (.boolc b) = b := by
  simp [EModel.truthy, interp, EModel.isT_bool2d]

theorem truthy_not (M : EModel) (a : Term) : M.truthy (.not a) = !M.truthy a := by
  simp [EModel.truthy, interp, EModel.isT_bool2d]

theorem truthy_and (M : EModel) (args : List Term) :
    M.truthy (.and args) = args.all M.truthy := by
  show M.isT (interp M (.and args)) = _
  simp only [interp, EModel.isT_bool2d, interpL_eq_map M args]
  exact all_truthy_map M args

theorem truthy_or (M : EModel) (args : List Term) :
    M.truthy (.or args) = args.any M.truthy := by
  show M.isT (interp M (.or args)) = _
  simp only [interp, EModel.isT_bool2d, interpL_eq_map M args]
  exact any_truthy_map M args

theorem truthy_imply (M : EModel) (args : List Term) :
    M.truthy (.imply args) = implyEval (args.map M.truthy) := by
  show M.isT (interp M (.imply args)) = _
  simp only [interp, EModel.isT_bool2d, interpL_eq_map M args, List.map_map]
  rfl

theorem truthy_eq (M : EModel) (a b : Term) :
    M.truthy (.eq a b) = M.deqB (interp M a) (interp M b) := by
  simp [EModel.truthy, interp, EModel.isT_bool2d]

theorem truthy_distinct (M : EModel) (args : List Term) :
    M.truthy (.distinct args) = M.distinctVals (interpL M args) := by
  simp [EModel.truthy, interp, EModel.isT_bool2d]

theorem interp_ite (M : EModel) (a b c : Term) :
    interp M (.ite a b c) = if M.truthy a then interp M b else interp M c := by
  simp [interp, EModel.truthy]

/-- A well-sorted Boolean-sorted term is interpreted at one of the two
truth points: its value is determined by its truth. -/
theorem interp_bool_sorted (M : EModel) :
    ∀ t : Term, Term.sortOf t = true → Term.ws t = true →
      interp M t = M.bool2d (M.truthy t)
  | .boolc b, _, _ => by
      simp [interp, truthy_boolc]
  | .var n bs, hs, _ => by
      simp only [Term.sortOf] at hs
      subst hs
      simp [interp, EModel.truthy, EModel.isT_bool2d]
  | .app f args bs, hs, _ => by
      simp only [Term.sortOf] at hs
      subst hs
      simp [interp, EModel.truthy, EModel.isT_bool2d]
  | .not a, _, _ => by
      simp [interp, EModel.truthy, EModel.isT_bool2d]
  | .and args, _, _ => by
      simp [interp, EModel.truthy, EModel.isT_bool2d]
  | .or args, _, _ => by
      simp [interp, EModel.truthy, EModel.isT_bool2d]
  | .imply args, _, _ => by
      simp [interp, EModel.truthy, EModel.isT_bool2d]
  | .eq a b, _, _ => by
      simp [interp, EModel.truthy, EModel.isT_bool2d]
  | .distinct args, _, _ => by
      simp [interp, EModel.truthy, EModel.isT_bool2d]
  | .ite a b c, hs, hw => by
      simp only [Term.sortOf] at hs
      simp only [Term.ws, Bool.and_eq_true, beq_iff_eq] at hw
      obtain ⟨⟨⟨⟨ha, hwa⟩, hwb⟩, hwc⟩, hbc⟩ := hw
      have hb := interp_bool_sorted M b hs hwb
      have hc := interp_bool_sorted M c (by rw [← hbc]; exact hs) hwc
      have hti : M.truthy (.ite a b c) = if M.truthy a then M.truthy b else M.truthy c := by
        show M.isT (interp M (.ite a b c)) = _
        rw [interp_ite]
        by_cases h : M.truthy a = true
        · rw [if_pos h, if_pos h]
          rfl
        · rw [if_neg h, if_neg h]
          rfl
      rw [interp_ite, hti]
      by_cases h : M.truthy a <;> simp [h, hb, hc]

/-! ## Semantic transparency of the simplifier building blocks -/

theorem list_any_neg (p : TLit → Bool) : ∀ l : List TLit, (l.any fun x => !(p x)) = !(l.all p)
  | [] => rfl
  | a :: l => by simp [list_any_neg p l]

theorem all_sortDedup (p : Term → Bool) (l : List Term) : (sortDedup l).all p = l.all p := by
  rw [Bool.eq_iff_iff, List.all_eq_true, List.all_eq_true]
  exact ⟨fun h x hx => h x (mem_sortDedup.mpr hx), fun h x hx => h x (mem_sortDedup.mp hx)⟩

theorem any_sortDedup (p : Term → Bool) (l : List Term) : (sortDedup l).any p = l.any p := by
  rw [Bool.eq_iff_iff, List.any_eq_true, List.any_eq_true]
  exact ⟨fun ⟨x, hx, hp⟩ => ⟨x, mem_sortDedup.mp hx, hp⟩,
         fun ⟨x, hx, hp⟩ => ⟨x, mem_sortDedup.mpr hx, hp⟩⟩

theorem all_flattenAnd (M : EModel) : ∀ l : List Term,
    (flattenConnRec Conn.and l).all M.truthy = l.all M.truthy
  | [] => by simp [flattenConnRec]
  | t :: ts => by
      have hrest := all_flattenAnd M ts
      cases t <;>
        try (simp [flattenConnRec, List.all_append, hrest])
      case and args2 =>
        have h2 := all_flattenAnd M args2
        simp [flattenConnRec, List.all_append, h2, hrest, truthy_and]
      case boolc b =>
        cases b <;> simp [flattenConnRec, List.all_append, hrest, truthy_boolc]
termination_by l => Term.sizeL l
decreasing_by
  all_goals simp only [Term.sizeL, Term.size]
  all_goals try omega
  all_goals (have h := Term.size_pos t; omega)

theorem any_flattenOr (M : EModel) : ∀ l : List Term,
    (flattenConnRec Conn.or l).any M.truthy = l.any M.truthy
  | [] => by simp [flattenConnRec]
  | t :: ts => by
      have hrest := any_flattenOr M ts
      cases t <;>
        try (simp [flattenConnRec, List.any_append, hrest])
      case or args2 =>
        have h2 := any_flattenOr M args2
        simp [flattenConnRec, List.any_append, h2, hrest, truthy_or]
      case boolc b =>
        cases b <;> simp [flattenConnRec, List.any_append, hrest, truthy_boolc]
termination_by l => Term.sizeL l
decreasing_by
  all_goals simp only [Term.sizeL, Term.size]
  all_goals try omega
  all_goals (have h := Term.size_pos t; omega)

theorem all_flattenConnAnd (M : EModel) (l : List Term) :
    (flattenConn Conn.and l).all M.truthy = l.all M.truthy := by
  unfold flattenConn
  rw [all_sortDedup, all_flattenAnd]

theorem any_flattenConnOr (M : EModel) (l : List Term) :
    (flattenConn Conn.or l).any M.truthy = l.any M.truthy := by
  unfold flattenConn
  rw [any_sortDedup, any_flattenOr]

theorem pairs_sem (M : EModel) : ∀ xs : List Term,
    (pairsDiseq xs).all M.truthy = M.distinctVals (interpL M xs)
  | [] => rfl
  | x :: xs => by
      have ih := pairs_sem M xs
      simp only [pairsDiseq, List.all_append, interpL, EModel.distinctVals, ih, List.all_map]
      congr 1
      rw [interpL_eq_map]
      apply Bool.eq_iff_iff.mpr
      rw [List.all_eq_true, List.all_eq_true]
      constructor
      · intro h e he
        obtain ⟨y, hy, rfl⟩ := List.mem_map.mp he
        have := h y hy
        simpa [Function.comp, truthy_not, truthy_eq] using this
      · intro h y hy
        have := h (interp M y) (List.mem_map_of_mem _ hy)
        simpa [Function.comp, truthy_not, truthy_eq] using this

theorem implyEval_snoc (p : Term → Bool) : ∀ (xs : List Term) (x : Term),
    implyEval ((xs ++ [x]).map p) = (((xs.map p).any fun b => !b) || p x)
  | [], x => by simp [implyEval]
  | [y], x => by simp [implyEval]
  | y :: z :: zs, x => by
      have ih := implyEval_snoc p (z :: zs) x
      simp only [List.cons_append, List.map_cons] at ih ⊢
      show (!(p y) || implyEval (p z :: ((zs ++ [x]).map p))) = _
      rw [ih]
      simp [Bool.or_assoc]

/-! ## Semantics of the term-to-literal mapping -/

theorem litTrue_negate (M : EModel) (l : TLit) : litTrue M l.negate = !(litTrue M l) := by
  unfold litTrue TLit.negate
  cases h1 : M.truthy l.atom <;> cases h2 : l.sign <;> rfl

theorem unfoldNot_sem (M : EModel) : ∀ (t : Term) (s : Bool),
    ((M.truthy (unfoldNot t s).1) == (unfoldNot t s).2) = (M.truthy t == s)
  | .not u, s => by
      have ih := unfoldNot_sem M u (!s)
      show (M.truthy (unfoldNot u (!s)).1 == (unfoldNot u (!s)).2) = _
      rw [ih, truthy_not]
      cases M.truthy u <;> cases s <;> rfl
  | .boolc b, s => rfl
  | .tybool, s => rfl
  | .var n bs, s => rfl
  | .app f args bs, s => rfl
  | .and args, s => rfl
  | .or args, s => rfl
  | .imply args, s => rfl
  | .eq a b, s => rfl
  | .distinct args, s => rfl
  | .ite a b c, s => rfl

theorem termToLit_sem (M : EModel) (t : Term) (l : TLit) (h : termToLit t = some l) :
    litTrue M l = M.truthy t := by
  have hs := unfoldNot_sem M t true
  unfold termToLit at h
  rcases hu : unfoldNot t true with ⟨u, sign⟩
  rw [hu] at h hs
  simp only at h hs
  have hgoal : (M.truthy u == sign) = M.truthy t := by
    rw [hs]
    cases M.truthy t <;> rfl
  cases u with
  | boolc b => cases h; simpa [litTrue] using hgoal
  | tybool => cases h
  | var n bs => cases h; simpa [litTrue] using hgoal
  | app f args bs => cases h; simpa [litTrue] using hgoal
  | not a => cases h
  | and args => cases h; simpa [litTrue] using hgoal
  | or args => cases h; simpa [litTrue] using hgoal
  | imply args => cases h; simpa [litTrue] using hgoal
  | eq a b => cases h; simpa [litTrue] using hgoal
  | ite a b c => cases h; simpa [litTrue] using hgoal
  | distinct args =>
      rcases args with _ | ⟨a, _ | ⟨b, _ | ⟨c2, rest⟩⟩⟩
      · cases h
        simpa [litTrue] using hgoal
      · cases h
        simpa [litTrue] using hgoal
      · cases h
        rw [litTrue_negate]
        have h2 : litTrue M ⟨LKind.t, Term.eq a b, sign⟩ = (M.truthy (.eq a b) == sign) := rfl
        rw [h2, ← hgoal]
        have h3 : M.truthy (.distinct [a, b]) = !(M.truthy (.eq a b)) := by
          rw [truthy_distinct, truthy_eq]
          simp [EModel.distinctVals, interpL]
        rw [h3]
        cases hx : M.truthy (.eq a b) <;> cases sign <;> rfl
      · cases h
        simpa [litTrue] using hgoal

theorem all_eq_all_map_id {α : Type} (p : α → Bool) : ∀ l : List α, l.all p = (l.map p).all id
  | [] => rfl
  | a :: l => by simp only [List.all_cons, List.map_cons, all_eq_all_map_id p l, id]

theorem any_eq_any_map_id {α : Type} (p : α → Bool) : ∀ l : List α, l.any p = (l.map p).any id
  | [] => rfl
  | a :: l => by simp only [List.any_cons, List.map_cons, any_eq_any_map_id p l, id]

theorem all_of_map_eq {α β : Type} {p : α → Bool} {q : β → Bool} {l1 : List α} {l2 : List β}
    (h : l1.map p = l2.map q) : l1.all p = l2.all q := by
  rw [all_eq_all_map_id p l1, h, ← all_eq_all_map_id q l2]

theorem any_of_map_eq {α β : Type} {p : α → Bool} {q : β → Bool} {l1 : List α} {l2 : List β}
    (h : l1.map p = l2.map q) : l1.any p = l2.any q := by
  rw [any_eq_any_map_id p l1, h, ← any_eq_any_map_id q l2]

theorem mapM_litTrue (M : EModel) : ∀ (args : List Term) (lits : List TLit),
    args.mapM termToLit = some lits → lits.map (litTrue M) = args.map M.truthy
  | [], lits, h => by
      simp only [List.mapM_nil, pure, Option.some_inj] at h
      subst h
      rfl
  | a :: args, lits, h => by
      rw [List.mapM_cons] at h
      cases hta : termToLit a with
      | none => rw [hta] at h; cases h
      | some l =>
          rw [hta] at h
          cases hm : args.mapM termToLit with
          | none => rw [hm] at h; cases h
          | some ls =>
              rw [hm] at h
              simp only [Option.bind_eq_bind, Option.some_bind, pure, Option.some_inj] at h
              have ih := mapM_litTrue M args ls hm
              subst h
              simp only [List.map_cons, ih, termToLit_sem M a l hta]

/-! ## Validity of the definitional clauses

The Tseitin definitional clauses for a connective node are true in every
model: the output literal's atom is the connective term itself, whose
interpretation is exactly the connective's truth table over the child
literals. -/

theorem negate_any (M : EModel) (lits : List TLit) :
    (lits.map TLit.negate).any (litTrue M) = !(lits.all (litTrue M)) := by
  rw [← list_any_neg]
  apply any_of_map_eq
  rw [List.map_map]
  apply List.map_congr_left
  intro l _
  exact litTrue_negate M l

theorem andShape_valid (M : EModel) (lits : List TLit) (la : TLit)
    (h : litTrue M la = lits.all (litTrue M)) :
    cnfTrue M ((lits.map fun sub => [la.negate, sub]) ++ [lits.map TLit.negate ++ [la]]) = true := by
  unfold cnfTrue
  rw [List.all_append, Bool.and_eq_true]
  constructor
  · rw [List.all_eq_true]
    intro cl hcl
    obtain ⟨sub, hsub, rfl⟩ := List.mem_map.mp hcl
    cases hall : lits.all (litTrue M) with
    | false =>
        have hf : litTrue M la = false := by rw [h, hall]
        simp [clauseTrue, litTrue_negate, hf]
    | true =>
        have := (List.all_eq_true.mp hall) sub hsub
        simp [clauseTrue, this]
  · simp only [List.all_cons, List.all_nil, Bool.and_true]
    show ((lits.map TLit.negate ++ [la]).any (litTrue M)) = true
    rw [List.any_append, negate_any]
    have h2 : ([la].any (litTrue M)) = lits.all (litTrue M) := by simp [h]
    rw [h2]
    cases lits.all (litTrue M) <;> simp

theorem orShape_valid (M : EModel) (lits : List TLit) (lo : TLit)
    (h : litTrue M lo = lits.any (litTrue M)) :
    cnfTrue M ((lits.map fun sub => [sub.negate, lo]) ++ [lits ++ [lo.negate]]) = true := by
  unfold cnfTrue
  rw [List.all_append, Bool.and_eq_true]
  constructor
  · rw [List.all_eq_true]
    intro cl hcl
    obtain ⟨sub, hsub, rfl⟩ := List.mem_map.mp hcl
    cases hsubv : litTrue M sub with
    | false => simp [clauseTrue, litTrue_negate, hsubv]
    | true =>
        have hany : lits.any (litTrue M) = true := List.any_eq_true.mpr ⟨sub, hsub, hsubv⟩
        simp [clauseTrue, h, hany]
  · simp only [List.all_cons, List.all_nil, Bool.and_true]
    show ((lits ++ [lo.negate]).any (litTrue M)) = true
    rw [List.any_append]
    have h2 : ([lo.negate].any (litTrue M)) = !(litTrue M lo) := by simp [litTrue_negate]
    rw [h2, h]
    cases lits.any (litTrue M) <;> simp


theorem nodeClauses_valid (M : EModel) : ∀ (u : Term) (cls : List (List TLit)),
    nodeClauses u = some cls → cnfTrue M cls = true := by
  intro u cls h
  cases u with
  | tybool =>
      cases h
      rfl
  | var n bs =>
      cases h
      rfl
  | app f args bs =>
      cases h
      rfl
  | not a =>
      cases h
      rfl
  | eq a b =>
      cases h
      rfl
  | boolc b =>
      cases b
      · cases h
        simp [cnfTrue, clauseTrue, litTrue, truthy_boolc]
      · cases h
        simp [cnfTrue, clauseTrue, litTrue, truthy_boolc]
  | distinct args =>
      cases h
  | ite a b c =>
      simp only [nodeClauses] at h
      cases hta : termToLit a with
      | none =>
          rw [hta] at h
          cases h
      | some l =>
          rw [hta] at h
          cases h
          rfl
  | and args =>
      simp only [nodeClauses] at h
      cases hm : args.mapM termToLit with
      | none =>
          rw [hm] at h
          cases h
      | some lits =>
          rw [hm] at h
          have hand : termToLit (Term.and args) = some ⟨LKind.t, Term.and args, true⟩ := rfl
          simp only [Option.bind_eq_bind, Option.some_bind, hand, Option.some_inj] at h
          subst h
          apply andShape_valid
          have hsem := mapM_litTrue M args lits hm
          have hla : litTrue M ⟨LKind.t, Term.and args, true⟩ = M.truthy (.and args) := by
            simp [litTrue]
          rw [hla, truthy_and]
          exact (all_of_map_eq hsem).symm
  | or args =>
      simp only [nodeClauses] at h
      cases hm : args.mapM termToLit with
      | none =>
          rw [hm] at h
          cases h
      | some lits =>
          rw [hm] at h
          have hor : termToLit (Term.or args) = some ⟨LKind.t, Term.or args, true⟩ := rfl
          simp only [Option.bind_eq_bind, Option.some_bind, hor, Option.some_inj] at h
          subst h
          apply orShape_valid
          have hsem := mapM_litTrue M args lits hm
          have hlo : litTrue M ⟨LKind.t, Term.or args, true⟩ = M.truthy (.or args) := by
            simp [litTrue]
          rw [hlo, truthy_or]
          exact (any_of_map_eq hsem).symm
  | imply args =>
      simp only [nodeClauses] at h
      by_cases he : args = []
      · rw [dif_pos he] at h
        cases h
      · rw [dif_neg he] at h
        cases hlast : termToLit (args.getLast he) with
        | none =>
            rw [hlast] at h
            cases h
        | some lastLit =>
            rw [hlast] at h
            cases hin : args.dropLast.mapM termToLit with
            | none =>
                rw [hin] at h
                cases h
            | some initLits =>
                rw [hin] at h
                have himp : termToLit (Term.imply args)
                    = some ⟨LKind.t, Term.imply args, true⟩ := rfl
                simp only [Option.bind_eq_bind, Option.some_bind, himp, Option.some_inj] at h
                subst h
                apply orShape_valid
                have hsem := mapM_litTrue M args.dropLast initLits hin
                have hlo : litTrue M ⟨LKind.t, Term.imply args, true⟩
                    = M.truthy (.imply args) := by
                  simp [litTrue]
                rw [hlo, truthy_imply]
                have hsnoc : args.dropLast ++ [args.getLast he] = args :=
                  List.dropLast_append_getLast he
                rw [← hsnoc, implyEval_snoc]
                rw [List.any_cons, negate_any]
                rw [termToLit_sem M _ _ hlast]
                have h3 : (args.dropLast.map M.truthy).any (fun b => !b)
                    = !(initLits.all (litTrue M)) := by
                  rw [← hsem, ← list_any_neg]
                  rw [any_eq_any_map_id, List.map_map, any_eq_any_map_id (fun x => !litTrue M x)]
                  rfl
                rw [h3]
                cases hx : M.truthy (args.getLast he) <;>
                  cases hy : initLits.all (litTrue M) <;> simp

/-! ## Cache invariant and preservation under simplification -/

/-- Every cached entry was produced by a simplification run: on
well-sorted keys it preserves interpretation, sort, and well-sortedness. -/
def cacheOK (M : EModel) (c : Cache) : Prop :=
  ∀ t u, cacheGet c t = some u → Term.ws t = true →
    interp M u = interp M t ∧ Term.sortOf u = Term.sortOf t ∧ Term.ws u = true

theorem cacheOK_nil (M : EModel) : cacheOK M [] := by
  intro t u h
  cases h

theorem cacheOK_ins (M : EModel) {c : Cache} {t u : Term} (hc : cacheOK M c)
    (h : Term.ws t = true →
      interp M u = interp M t ∧ Term.sortOf u = Term.sortOf t ∧ Term.ws u = true) :
    cacheOK M (cacheIns c t u) := by
  intro t2 u2 hg hw
  unfold cacheIns cacheGet at hg
  by_cases he : t = t2
  · rw [if_pos he] at hg
    cases hg
    subst he
    exact h hw
  · rw [if_neg he] at hg
    exact hc t2 u2 hg hw

theorem wsL_eq : ∀ l : List Term, Term.wsL l = l.all Term.ws
  | [] => rfl
  | t :: ts => by simp only [Term.wsL, List.all_cons, wsL_eq ts]

theorem wsB_eq : ∀ l : List Term,
    Term.wsB l = l.all (fun x => Term.sortOf x && Term.ws x)
  | [] => rfl
  | t :: ts => by simp only [Term.wsB, List.all_cons, wsB_eq ts]

theorem wsB_append : ∀ l1 l2 : List Term,
    Term.wsB (l1 ++ l2) = (Term.wsB l1 && Term.wsB l2)
  | [], l2 => by simp [Term.wsB]
  | t :: ts, l2 => by
      have ih := wsB_append ts l2
      show ((t.sortOf && t.ws) && Term.wsB (ts ++ l2))
        = (((t.sortOf && t.ws) && Term.wsB ts) && Term.wsB l2)
      rw [ih]
      cases t.sortOf <;> cases t.ws <;> cases Term.wsB ts <;> cases Term.wsB l2 <;> rfl

theorem wsB_flattenAnd : ∀ l : List Term,
    Term.wsB l = true → Term.wsB (flattenConnRec Conn.and l) = true
  | [] => by
      intro h
      simp only [flattenConnRec]
      exact h
  | t :: ts => by
      intro h
      simp only [Term.wsB, Bool.and_eq_true] at h
      obtain ⟨⟨hst, hwt⟩, hts⟩ := h
      have hrest := wsB_flattenAnd ts hts
      cases t <;>
        try (simp only [flattenConnRec, wsB_append, Term.wsB, hst, hwt, hrest]; rfl)
      case and args2 =>
        have hin : Term.wsB args2 = true := hwt
        have h2 := wsB_flattenAnd args2 hin
        simp only [flattenConnRec, wsB_append, h2, hrest]
        rfl
      case boolc b =>
        cases b <;> simp only [flattenConnRec, wsB_append, Term.wsB, hst, hwt, hrest] <;> rfl
termination_by l => Term.sizeL l
decreasing_by
  all_goals simp only [Term.sizeL, Term.size]
  all_goals try omega
  all_goals (have h := Term.size_pos t; omega)

theorem wsB_flattenOr : ∀ l : List Term,
    Term.wsB l = true → Term.wsB (flattenConnRec Conn.or l) = true
  | [] => by
      intro h
      simp only [flattenConnRec]
      exact h
  | t :: ts => by
      intro h
      simp only [Term.wsB, Bool.and_eq_true] at h
      obtain ⟨⟨hst, hwt⟩, hts⟩ := h
      have hrest := wsB_flattenOr ts hts
      cases t <;>
        try (simp only [flattenConnRec, wsB_append, Term.wsB, hst, hwt, hrest]; rfl)
      case or args2 =>
        have hin : Term.wsB args2 = true := hwt
        have h2 := wsB_flattenOr args2 hin
        simp only [flattenConnRec, wsB_append, h2, hrest]
        rfl
      case boolc b =>
        cases b <;> simp only [flattenConnRec, wsB_append, Term.wsB, hst, hwt, hrest] <;> rfl
termination_by l => Term.sizeL l
decreasing_by
  all_goals simp only [Term.sizeL, Term.size]
  all_goals try omega
  all_goals (have h := Term.size_pos t; omega)

theorem wsB_flattenConn (conn : Conn) (l : List Term) (h : Term.wsB l = true) :
    Term.wsB (flattenConn conn l) = true := by
  unfold flattenConn
  rw [wsB_eq, all_sortDedup, ← wsB_eq]
  cases conn
  · exact wsB_flattenAnd l h
  · exact wsB_flattenOr l h

theorem map_truthy_of_interpL_eq (M : EModel) {us l : List Term}
    (h : interpL M us = interpL M l) : us.map M.truthy = l.map M.truthy := by
  have h1 : ∀ v : List Term, v.map M.truthy = (interpL M v).map M.isT := by
    intro v
    rw [interpL_eq_map, List.map_map]
    rfl
  rw [h1, h1, h]

/-! ## Semantic preservation of `simplify_rec`

Every rewrite of the simplifier is an EUF-with-Bool equivalence: on
well-sorted input the result has the same interpretation in every model,
the same sort, is well-sorted, and the cache invariant is maintained. -/


theorem wsB_mem {l : List Term} (h : Term.wsB l = true) :
    ∀ x ∈ l, Term.sortOf x = true ∧ Term.ws x = true := by
  intro x hx
  rw [wsB_eq, List.all_eq_true] at h
  have h2 := h x hx
  simp only [Bool.and_eq_true] at h2
  exact h2

theorem wsB_of_mem {l : List Term}
    (h : ∀ x ∈ l, Term.sortOf x = true ∧ Term.ws x = true) : Term.wsB l = true := by
  rw [wsB_eq, List.all_eq_true]
  intro x hx
  simp only [Bool.and_eq_true]
  exact h x hx

theorem wsL_mem {l : List Term} (h : Term.wsL l = true) : ∀ x ∈ l, Term.ws x = true := by
  intro x hx
  rw [wsL_eq, List.all_eq_true] at h
  exact h x hx

theorem wsL_of_mem {l : List Term} (h : ∀ x ∈ l, Term.ws x = true) : Term.wsL l = true := by
  rw [wsL_eq, List.all_eq_true]
  exact h

theorem wsL_of_wsB {l : List Term} (h : Term.wsB l = true) : Term.wsL l = true :=
  wsL_of_mem (fun x hx => (wsB_mem h x hx).2)

theorem wsB_pairsDiseq : ∀ {xs : List Term}, Term.wsL xs = true →
    Term.wsB (pairsDiseq xs) = true := by
  intro xs
  induction xs with
  | nil => intro h; rfl
  | cons x l ih =>
      intro h
      simp only [Term.wsL, Bool.and_eq_true] at h
      obtain ⟨hx, hl⟩ := h
      simp only [pairsDiseq]
      rw [wsB_eq, List.all_append, Bool.and_eq_true]
      constructor
      · rw [List.all_eq_true]
        intro z hz
        obtain ⟨y, hy, rfl⟩ := List.mem_map.mp hz
        have hyw := wsL_mem hl y hy
        simp [Term.sortOf, Term.ws, hx, hyw]
      · rw [← wsB_eq]
        exact ih hl

/-- The `imply → or` rewrite is semantically exact: the disjunction of the
negated premises and the conclusion has the truth value of the implication. -/
theorem imply_or_any (M : EModel) : ∀ l : List Term, 1 ≤ l.length →
    ((l.take (l.length - 1)).map Term.not ++ l.drop (l.length - 1)).any M.truthy
      = implyEval (l.map M.truthy)
  | [], h => by cases h
  | [x], _ => by
      simp [implyEval]
  | x :: y :: rest, _ => by
      have ih := imply_or_any M (y :: rest) (by simp)
      have hlen : (x :: y :: rest).length - 1 = (y :: rest).length - 1 + 1 := by
        simp only [List.length_cons]
        omega
      rw [hlen, List.take_succ_cons, List.drop_succ_cons]
      simp only [List.map_cons, List.cons_append, List.any_cons]
      rw [ih, truthy_not]
      have hne : (y :: rest).map M.truthy = M.truthy y :: rest.map M.truthy := rfl
      rw [hne]
      show (!M.truthy x || implyEval (M.truthy y :: List.map M.truthy rest))
        = implyEval (M.truthy x :: M.truthy y :: List.map M.truthy rest)
      rfl

theorem all_false_of_mem_false (M : EModel) {l : List Term} {x : Term} (hx : x ∈ l)
    (hf : M.truthy x = false) : l.all M.truthy = false := by
  cases hall : l.all M.truthy with
  | false => rfl
  | true =>
      have := List.all_eq_true.mp hall x hx
      rw [hf] at this
      cases this

theorem any_true_of_mem_true (M : EModel) {l : List Term} {x : Term} (hx : x ∈ l)
    (ht : M.truthy x = true) : l.any M.truthy = true :=
  List.any_eq_true.mpr ⟨x, hx, ht⟩

def SRok (M : EModel) (c : Cache) (t : Term) : Prop :=
  cacheOK M c → Term.ws t = true → ∀ u c1, simplifyRec c t = some (u, c1) →
    (interp M u = interp M t ∧ Term.sortOf u = Term.sortOf t ∧ Term.ws u = true) ∧ cacheOK M c1

def SSok (M : EModel) (c : Cache) (t : Term) : Prop :=
  cacheOK M c → Term.ws t = true → ∀ u c1, simplifyStep c t = some (u, c1) →
    (interp M u = interp M t ∧ Term.sortOf u = Term.sortOf t ∧ Term.ws u = true) ∧ cacheOK M c1

def SLok (M : EModel) (c : Cache) (l : List Term) : Prop :=
  cacheOK M c → Term.wsL l = true → ∀ us c1, simplifyList c l = some (us, c1) →
    (interpL M us = interpL M l ∧ us.map Term.sortOf = l.map Term.sortOf
      ∧ Term.wsL us = true) ∧ cacheOK M c1

theorem simplify_sem (M : EModel) :
    (∀ (c : Cache) (t : Term), SRok M c t) ∧ (∀ (c : Cache) (t : Term), SSok M c t) ∧
      (∀ (c : Cache) (l : List Term), SLok M c l) := by
  apply simplifyRec.mutual_induct (fun c t => SRok M c t) (fun c t => SSok M c t)
    (fun c l => SLok M c l)
  case _ =>
    intro c t u0 hget
    intro hc hw u c1 h
    simp only [simplifyRec, hget, Option.some_inj, Prod.mk.injEq] at h
    obtain ⟨rfl, rfl⟩ := h
    exact ⟨hc t u0 hget hw, hc⟩
  case _ =>
    intro c t hget hstep ih
    intro hc hw u c1 h
    simp only [simplifyRec, hget, hstep] at h
    cases h
  case _ =>
    intro c t hget u0 c0 hstep ih
    intro hc hw u c1 h
    simp only [simplifyRec, hget, hstep, Option.some_inj, Prod.mk.injEq] at h
    obtain ⟨rfl, rfl⟩ := h
    obtain ⟨h3, hc0⟩ := ih hc hw u0 c0 hstep
    exact ⟨h3, cacheOK_ins M hc0 (fun _ => h3)⟩
  case _ =>
    intro c b
    intro hc hw u c1 h
    simp only [simplifyStep, Option.some_inj, Prod.mk.injEq] at h
    obtain ⟨rfl, rfl⟩ := h
    exact ⟨⟨rfl, rfl, hw⟩, hc⟩
  case _ =>
    intro c
    intro hc hw u c1 h
    simp only [simplifyStep, Option.some_inj, Prod.mk.injEq] at h
    obtain ⟨rfl, rfl⟩ := h
    exact ⟨⟨rfl, rfl, hw⟩, hc⟩
  case _ =>
    intro c head
    intro hc hw u c1 h
    simp only [simplifyStep, Option.some_inj, Prod.mk.injEq] at h
    obtain ⟨rfl, rfl⟩ := h
    refine ⟨⟨?_, rfl, rfl⟩, hc⟩
    simp [interp, EModel.distinctVals, interpL]
  case _ =>
    intro c a b hfa ih1
    intro hc hw u c1 h
    simp only [simplifyStep, hfa] at h
    cases h
  case _ =>
    intro c a b a1 ca ha hb ih1 ih2
    intro hc hw u c1 h
    simp only [simplifyStep, ha, hb] at h
    cases h
  case _ =>
    intro c a b a1 ca ha b1 cb hb ih1 ih2
    intro hc hw u c1 h
    simp only [Term.ws, Term.wsL, Bool.and_eq_true] at hw
    obtain ⟨hwa, hwb, -⟩ := hw
    simp only [simplifyStep, ha, hb, Option.some_inj, Prod.mk.injEq] at h
    obtain ⟨rfl, rfl⟩ := h
    obtain ⟨⟨hia, hsa, hwa1⟩, hca⟩ := ih1 hc hwa a1 ca ha
    obtain ⟨⟨hib, hsb, hwb1⟩, hcb⟩ := ih2 hca hwb b1 cb hb
    refine ⟨⟨?_, rfl, ?_⟩, hcb⟩
    · simp only [interp, interpL, EModel.distinctVals, EModel.isT_bool2d, hia, hib]
      simp
    · simp only [Term.ws, Term.sortOf, hwa1, hwb1]
      rfl
  case _ =>
    intro c
    intro hc hw u c1 h
    simp only [simplifyStep] at h
    cases h
  case _ =>
    intro c args hx1 hx2 hx0 hfail ih3
    intro hc hw u c1 h
    rcases args with _ | ⟨x, _ | ⟨y, _ | ⟨z, rest⟩⟩⟩
    · exact (hx0 rfl).elim
    · exact (hx1 x rfl).elim
    · exact (hx2 x y rfl).elim
    · simp only [simplifyStep, hfail] at h
      cases h
  case _ =>
    intro c args hx1 hx2 hx0 args1 c0 hlist ih3
    intro hc hw u c1 h
    rcases args with _ | ⟨x, _ | ⟨y, _ | ⟨z, rest⟩⟩⟩
    · exact (hx0 rfl).elim
    · exact (hx1 x rfl).elim
    · exact (hx2 x y rfl).elim
    · simp only [simplifyStep, hlist, Option.some_inj, Prod.mk.injEq] at h
      obtain ⟨rfl, rfl⟩ := h
      have hwl : Term.wsL (x :: y :: z :: rest) = true := hw
      obtain ⟨⟨hiL, hsL, hwL⟩, hc0⟩ := ih3 hc hwl args1 c0 hlist
      refine ⟨⟨?_, rfl, ?_⟩, hc0⟩
      · simp only [interp]
        congr 1
        rw [interpL_eq_map, all_truthy_map, pairs_sem, hiL]
      · show Term.wsB (pairsDiseq args1) = true
        exact wsB_pairsDiseq hwL
  case _ =>
    intro c b
    intro hc hw u c1 h
    simp only [simplifyStep, if_pos rfl, Option.some_inj, Prod.mk.injEq] at h
    obtain ⟨rfl, rfl⟩ := h
    refine ⟨⟨?_, rfl, rfl⟩, hc⟩
    simp [interp, EModel.deqB]
  case _ =>
    intro c a b hne hfa ih1
    intro hc hw u c1 h
    simp only [simplifyStep, if_neg hne, hfa] at h
    cases h
  case _ =>
    intro c a b hne a1 ca ha hb ih1 ih2
    intro hc hw u c1 h
    simp only [simplifyStep, if_neg hne, ha, hb] at h
    cases h
  case _ =>
    intro c a b hne a1 ca ha b1 cb hb ih1 ih2
    intro hc hw u c1 h
    simp only [Term.ws, Bool.and_eq_true] at hw
    obtain ⟨hwa, hwb⟩ := hw
    simp only [simplifyStep, if_neg hne, ha, hb, Option.some_inj, Prod.mk.injEq] at h
    obtain ⟨rfl, rfl⟩ := h
    obtain ⟨⟨hia, hsa, hwa1⟩, hca⟩ := ih1 hc hwa a1 ca ha
    obtain ⟨⟨hib, hsb, hwb1⟩, hcb⟩ := ih2 hca hwb b1 cb hb
    refine ⟨⟨?_, rfl, ?_⟩, hcb⟩
    · simp only [interp, hia, hib]
    · simp only [Term.ws, hwa1, hwb1]
      rfl
  case _ =>
    intro c n bs
    intro hc hw u c1 h
    simp only [simplifyStep, Option.some_inj, Prod.mk.injEq] at h
    obtain ⟨rfl, rfl⟩ := h
    exact ⟨⟨rfl, rfl, hw⟩, hc⟩
  case _ =>
    intro c f args bs hfa ih1
    intro hc hw u c1 h
    simp only [simplifyStep, hfa] at h
    cases h
  case _ =>
    intro c f args bs f1 ca ha hlist ih1 ih3
    intro hc hw u c1 h
    simp only [simplifyStep, ha, hlist] at h
    cases h
  case _ =>
    intro c f args bs f1 ca ha args1 cb hlist ih1 ih3
    intro hc hw u c1 h
    simp only [Term.ws, Bool.and_eq_true] at hw
    obtain ⟨hwf, hwargs⟩ := hw
    simp only [simplifyStep, ha, hlist, Option.some_inj, Prod.mk.injEq] at h
    obtain ⟨rfl, rfl⟩ := h
    obtain ⟨⟨hif, hsf, hwf1⟩, hca⟩ := ih1 hc hwf f1 ca ha
    obtain ⟨⟨hiL, hsL, hwL⟩, hcb⟩ := ih3 hca hwargs args1 cb hlist
    refine ⟨⟨?_, rfl, ?_⟩, hcb⟩
    · simp only [interp, hif, hiL]
    · simp only [Term.ws, hwf1, hwL]
      rfl
  case _ =>
    intro c a hfa ih1
    intro hc hw u c1 h
    simp only [simplifyStep, hfa] at h
    cases h
  case _ =>
    intro c a c0 b ha ih1
    intro hc hw u c1 h
    simp only [Term.ws, Bool.and_eq_true] at hw
    obtain ⟨hsa, hwa⟩ := hw
    simp only [simplifyStep, ha, Option.some_inj, Prod.mk.injEq] at h
    obtain ⟨rfl, rfl⟩ := h
    obtain ⟨⟨hia, hsa1, hwa1⟩, hc0⟩ := ih1 hc hwa (Term.boolc b) c0 ha
    refine ⟨⟨?_, rfl, rfl⟩, hc0⟩
    have hta : M.isT (interp M a) = b := by
      rw [← hia]
      simp only [interp]
      exact M.isT_bool2d b
    simp only [interp, hta]
  case _ =>
    intro c a c0 v ha ih1
    intro hc hw u c1 h
    simp only [Term.ws, Bool.and_eq_true] at hw
    obtain ⟨hsa, hwa⟩ := hw
    simp only [simplifyStep, ha, Option.some_inj, Prod.mk.injEq] at h
    obtain ⟨rfl, rfl⟩ := h
    obtain ⟨⟨hia, hsa1, hwa1⟩, hc0⟩ := ih1 hc hwa (Term.not v) c0 ha
    simp only [Term.ws, Bool.and_eq_true] at hwa1
    obtain ⟨hsv, hwv⟩ := hwa1
    refine ⟨⟨?_, ?_, hwv⟩, hc0⟩
    · have hvb := interp_bool_sorted M v hsv hwv
      have h2 : M.isT (interp M a) = !(M.truthy v) := by
        rw [← hia]
        simp only [interp]
        rw [M.isT_bool2d]
        rfl
      rw [hvb]
      simp only [interp, h2, Bool.not_not]
    · rw [hsv]
      try rfl
  case _ =>
    intro c a u0 c0 ha hnb hnn ih1
    intro hc hw u c1 h
    simp only [Term.ws, Bool.and_eq_true] at hw
    obtain ⟨hsa, hwa⟩ := hw
    obtain ⟨⟨hia, hsa1, hwa1⟩, hc0⟩ := ih1 hc hwa u0 c0 ha
    have hred : simplifyStep c (Term.not a) = some (Term.not u0, c0) := by
      simp only [simplifyStep, ha]
    rw [hred, Option.some_inj, Prod.mk.injEq] at h
    obtain ⟨rfl, rfl⟩ := h
    refine ⟨⟨?_, rfl, ?_⟩, hc0⟩
    · simp only [interp, hia]
    · simp only [Term.ws, Bool.and_eq_true]
      rw [hsa1]
      exact ⟨hsa, hwa1⟩
  case _ =>
    intro c args0 hfail ih3
    intro hc hw u c1 h
    simp only [simplifyStep, hfail] at h
    cases h
  case _ =>
    intro c args0 args1 c0 hlist hany ih3
    intro hc hw u c1 h
    have hwB : Term.wsB args0 = true := hw
    have hwflat : Term.wsB (flattenConn Conn.and args0) = true := wsB_flattenConn _ _ hwB
    obtain ⟨⟨hiL, hsL, hwL⟩, hc0⟩ := ih3 hc (wsL_of_wsB hwflat) args1 c0 hlist
    simp only [simplifyStep, hlist, if_pos hany, Option.some_inj, Prod.mk.injEq] at h
    obtain ⟨rfl, rfl⟩ := h
    refine ⟨⟨?_, rfl, rfl⟩, hc0⟩
    obtain ⟨x, hx, hxf⟩ := List.any_eq_true.mp hany
    have hxeq : x = Term.boolc false := by simpa using hxf
    subst hxeq
    have hf1 : args1.all M.truthy = false :=
      all_false_of_mem_false M hx (truthy_boolc M false)
    have hf0 : args0.all M.truthy = false := by
      rw [← all_flattenConnAnd M args0,
        ← all_of_map_eq (map_truthy_of_interpL_eq M hiL)]
      exact hf1
    simp only [interp]
    rw [interpL_eq_map, all_truthy_map, hf0]
  case _ =>
    intro c args0 args1 c0 hlist hnany ih3
    intro hc hw u c1 h
    have hwB : Term.wsB args0 = true := hw
    have hwflat : Term.wsB (flattenConn Conn.and args0) = true := wsB_flattenConn _ _ hwB
    obtain ⟨⟨hiL, hsL, hwL⟩, hc0⟩ := ih3 hc (wsL_of_wsB hwflat) args1 c0 hlist
    simp only [simplifyStep, hlist, if_neg hnany, Option.some_inj, Prod.mk.injEq] at h
    obtain ⟨rfl, rfl⟩ := h
    refine ⟨⟨?_, rfl, ?_⟩, hc0⟩
    · simp only [interp]
      congr 1
      rw [interpL_eq_map, all_truthy_map, interpL_eq_map, all_truthy_map,
        ← all_flattenConnAnd M args0]
      exact all_of_map_eq (map_truthy_of_interpL_eq M hiL)
    · show Term.wsB args1 = true
      apply wsB_of_mem
      intro x hx
      constructor
      · have hs0 : args1.all Term.sortOf = (flattenConn Conn.and args0).all Term.sortOf :=
          all_of_map_eq hsL
        have : (flattenConn Conn.and args0).all Term.sortOf = true := by
          rw [List.all_eq_true]
          intro y hy
          exact (wsB_mem hwflat y hy).1
        rw [this] at hs0
        exact List.all_eq_true.mp hs0 x hx
      · exact wsL_mem hwL x hx
  case _ =>
    intro c args0 hfail ih3
    intro hc hw u c1 h
    simp only [simplifyStep, hfail] at h
    cases h
  case _ =>
    intro c args0 args1 c0 hlist hany ih3
    intro hc hw u c1 h
    have hwB : Term.wsB args0 = true := hw
    have hwflat : Term.wsB (flattenConn Conn.or args0) = true := wsB_flattenConn _ _ hwB
    obtain ⟨⟨hiL, hsL, hwL⟩, hc0⟩ := ih3 hc (wsL_of_wsB hwflat) args1 c0 hlist
    simp only [simplifyStep, hlist, if_pos hany, Option.some_inj, Prod.mk.injEq] at h
    obtain ⟨rfl, rfl⟩ := h
    refine ⟨⟨?_, rfl, rfl⟩, hc0⟩
    obtain ⟨x, hx, hxf⟩ := List.any_eq_true.mp hany
    have hxeq : x = Term.boolc true := by simpa using hxf
    subst hxeq
    have hf1 : args1.any M.truthy = true :=
      any_true_of_mem_true M hx (truthy_boolc M true)
    have hf0 : args0.any M.truthy = true := by
      rw [← any_flattenConnOr M args0,
        ← any_of_map_eq (map_truthy_of_interpL_eq M hiL)]
      exact hf1
    simp only [interp]
    rw [interpL_eq_map, any_truthy_map, hf0]
  case _ =>
    intro c args0 args1 c0 hlist hnany ih3
    intro hc hw u c1 h
    have hwB : Term.wsB args0 = true := hw
    have hwflat : Term.wsB (flattenConn Conn.or args0) = true := wsB_flattenConn _ _ hwB
    obtain ⟨⟨hiL, hsL, hwL⟩, hc0⟩ := ih3 hc (wsL_of_wsB hwflat) args1 c0 hlist
    simp only [simplifyStep, hlist, if_neg hnany, Option.some_inj, Prod.mk.injEq] at h
    obtain ⟨rfl, rfl⟩ := h
    refine ⟨⟨?_, rfl, ?_⟩, hc0⟩
    · simp only [interp]
      congr 1
      rw [interpL_eq_map, any_truthy_map, interpL_eq_map, any_truthy_map,
        ← any_flattenConnOr M args0]
      exact any_of_map_eq (map_truthy_of_interpL_eq M hiL)
    · show Term.wsB args1 = true
      apply wsB_of_mem
      intro x hx
      constructor
      · have hs0 : args1.all Term.sortOf = (flattenConn Conn.or args0).all Term.sortOf :=
          all_of_map_eq hsL
        have : (flattenConn Conn.or args0).all Term.sortOf = true := by
          rw [List.all_eq_true]
          intro y hy
          exact (wsB_mem hwflat y hy).1
        rw [this] at hs0
        exact List.all_eq_true.mp hs0 x hx
      · exact wsL_mem hwL x hx
  case _ =>
    intro c args0 hlt
    intro hc hw u c1 h
    simp only [simplifyStep, if_pos hlt] at h
    cases h
  case _ =>
    intro c args0 hge ih1
    intro hc hw u c1 h
    have hwB : Term.wsB args0 = true := hw
    simp only [simplifyStep, if_neg hge] at h
    have hwd : Term.ws (Term.or ((args0.take (args0.length - 1)).map Term.not
        ++ args0.drop (args0.length - 1))) = true := by
      show Term.wsB _ = true
      rw [wsB_append, Bool.and_eq_true]
      constructor
      · apply wsB_of_mem
        intro z hz
        obtain ⟨y, hy, rfl⟩ := List.mem_map.mp hz
        have hy0 : y ∈ args0 := (List.take_sublist _ _).subset hy
        obtain ⟨hys, hyw⟩ := wsB_mem hwB y hy0
        constructor
        · rfl
        · simp only [Term.ws, hys, hyw]
          rfl
      · apply wsB_of_mem
        intro z hz
        exact wsB_mem hwB z ((List.drop_sublist _ _).subset hz)
    obtain ⟨⟨hi, hs, hwu⟩, hc1⟩ := ih1 hc hwd u c1 h
    refine ⟨⟨?_, ?_, hwu⟩, hc1⟩
    · rw [hi]
      simp only [interp]
      congr 1
      rw [interpL_eq_map, any_truthy_map, interpL_eq_map, List.map_map]
      have h2 : (List.map (M.isT ∘ interp M) args0) = args0.map M.truthy := rfl
      rw [h2, ← imply_or_any M args0 (by omega)]
    · rw [hs]
      rfl
  case _ =>
    intro c a b c0 hfa ih1
    intro hc hw u c1 h
    simp only [simplifyStep, hfa] at h
    cases h
  case _ =>
    intro c a b c0 a1 ca ha hb ih1 ih2
    intro hc hw u c1 h
    simp only [simplifyStep, ha, hb] at h
    cases h
  case _ =>
    intro c a b c0 a1 ca ha b1 cb hb hcc ih1 ih2 ih3
    intro hc hw u c1 h
    simp only [simplifyStep, ha, hb, hcc] at h
    cases h
  case _ =>
    intro c a b c0 ca b1 cb hb c01 cc hcc ha ih1 ih2 ih3
    intro hc hw u c1 h
    simp only [Term.ws, Bool.and_eq_true, beq_iff_eq] at hw
    obtain ⟨⟨⟨⟨hsa, hwa⟩, hwb⟩, hwc⟩, hbc⟩ := hw
    simp only [simplifyStep, ha, hb, hcc, Option.some_inj, Prod.mk.injEq] at h
    obtain ⟨rfl, rfl⟩ := h
    obtain ⟨⟨hia, hsa1, hwa1⟩, hca⟩ := ih1 hc hwa (Term.boolc true) ca ha
    obtain ⟨⟨hib, hsb1, hwb1⟩, hcb⟩ := ih2 hca hwb b1 cb hb
    obtain ⟨⟨hic, hsc1, hwc1⟩, hcc2⟩ := ih3 hcb hwc c01 cc hcc
    refine ⟨⟨?_, ?_, hwb1⟩, hcc2⟩
    · have hta : M.isT (interp M a) = true := by
        rw [← hia]
        simp only [interp]
        exact M.isT_bool2d true
      simp only [interp, hta]
      rw [hib]
      try simp
    · rw [hsb1]
      rfl
  case _ =>
    intro c a b c0 ca b1 cb hb c01 cc hcc ha ih1 ih2 ih3
    intro hc hw u c1 h
    simp only [Term.ws, Bool.and_eq_true, beq_iff_eq] at hw
    obtain ⟨⟨⟨⟨hsa, hwa⟩, hwb⟩, hwc⟩, hbc⟩ := hw
    simp only [simplifyStep, ha, hb, hcc, Option.some_inj, Prod.mk.injEq] at h
    obtain ⟨rfl, rfl⟩ := h
    obtain ⟨⟨hia, hsa1, hwa1⟩, hca⟩ := ih1 hc hwa (Term.boolc false) ca ha
    obtain ⟨⟨hib, hsb1, hwb1⟩, hcb⟩ := ih2 hca hwb b1 cb hb
    obtain ⟨⟨hic, hsc1, hwc1⟩, hcc2⟩ := ih3 hcb hwc c01 cc hcc
    refine ⟨⟨?_, ?_, hwc1⟩, hcc2⟩
    · have hta : M.isT (interp M a) = false := by
        rw [← hia]
        simp only [interp]
        exact M.isT_bool2d false
      simp only [interp, hta]
      rw [hic]
      try simp
    · rw [hsc1, ← hbc]
      rfl
  case _ =>
    intro c a b c0 a1 ca ha cb u1 cc hcc hnt hnf hb ih1 ih2 ih3
    intro hc hw u c1 h
    simp only [Term.ws, Bool.and_eq_true, beq_iff_eq] at hw
    obtain ⟨⟨⟨⟨hsa, hwa⟩, hwb⟩, hwc⟩, hbc⟩ := hw
    obtain ⟨⟨hia, hsa1, hwa1⟩, hca⟩ := ih1 hc hwa a1 ca ha
    obtain ⟨⟨hib, hsb1, hwb1⟩, hcb⟩ := ih2 hca hwb u1 cb hb
    obtain ⟨⟨hic, hsc1, hwc1⟩, hcc3⟩ := ih3 hcb hwc u1 cc hcc
    have hred : simplifyStep c (Term.ite a b c0) = some (u1, cc) := by
      simp only [simplifyStep, ha, hb, hcc]
      rcases a1 with b2 | _ | _ | _ | _ | _ | _ | _ | _ | _ | _ <;>
        first
          | (cases b2
             · exact (hnf rfl).elim
             · exact (hnt rfl).elim)
          | simp
    rw [hred, Option.some_inj, Prod.mk.injEq] at h
    obtain ⟨rfl, rfl⟩ := h
    refine ⟨⟨?_, ?_, hwb1⟩, hcc3⟩
    · simp only [interp]
      by_cases hta : M.isT (interp M a) = true
      · rw [if_pos hta, hib]
      · rw [if_neg hta, hic]
    · rw [hsb1]
      rfl
  case _ =>
    intro c a b c0 a1 ca ha u1 cb hb u2 cc hcc hne hnt hnf ih1 ih2 ih3
    intro hc hw u c1 h
    simp only [Term.ws, Bool.and_eq_true, beq_iff_eq] at hw
    obtain ⟨⟨⟨⟨hsa, hwa⟩, hwb⟩, hwc⟩, hbc⟩ := hw
    obtain ⟨⟨hia, hsa1, hwa1⟩, hca⟩ := ih1 hc hwa a1 ca ha
    obtain ⟨⟨hib, hsb1, hwb1⟩, hcb⟩ := ih2 hca hwb u1 cb hb
    obtain ⟨⟨hic, hsc1, hwc1⟩, hcc3⟩ := ih3 hcb hwc u2 cc hcc
    have hred : simplifyStep c (Term.ite a b c0) = some (Term.ite a1 u1 u2, cc) := by
      simp only [simplifyStep, ha, hb, hcc]
      rcases a1 with b2 | _ | _ | _ | _ | _ | _ | _ | _ | _ | _ <;>
        first
          | (cases b2
             · exact (hnf rfl).elim
             · exact (hnt rfl).elim)
          | (rw [if_neg hne])
    rw [hred, Option.some_inj, Prod.mk.injEq] at h
    obtain ⟨rfl, rfl⟩ := h
    refine ⟨⟨?_, ?_, ?_⟩, hcc3⟩
    · simp only [interp, hia, hib, hic]
    · show Term.sortOf u1 = _
      rw [hsb1]
      rfl
    · simp only [Term.ws, Bool.and_eq_true, beq_iff_eq]
      rw [hsa1, hsb1, hsc1]
      exact ⟨⟨⟨⟨hsa, hwa1⟩, hwb1⟩, hwc1⟩, hbc⟩
  case _ =>
    intro c
    intro hc hw us c1 h
    simp only [simplifyList, Option.some_inj, Prod.mk.injEq] at h
    obtain ⟨rfl, rfl⟩ := h
    exact ⟨⟨rfl, rfl, rfl⟩, hc⟩
  case _ =>
    intro c t ts hfail ih1
    intro hc hw us c1 h
    simp only [simplifyList, hfail] at h
    cases h
  case _ =>
    intro c t ts u0 c0 hhead htail ih1 ih3
    intro hc hw us c1 h
    simp only [simplifyList, hhead, htail] at h
    cases h
  case _ =>
    intro c t ts u0 c0 hhead us0 c10 htail ih1 ih3
    intro hc hw us c1 h
    simp only [Term.wsL, Bool.and_eq_true] at hw
    simp only [simplifyList, hhead, htail, Option.some_inj, Prod.mk.injEq] at h
    obtain ⟨rfl, rfl⟩ := h
    obtain ⟨⟨hi, hs, hwu⟩, hc1⟩ := ih1 hc hw.1 u0 c0 hhead
    obtain ⟨⟨hiL, hsL, hwL⟩, hc2⟩ := ih3 hc1 hw.2 us0 c10 htail
    refine ⟨⟨?_, ?_, ?_⟩, hc2⟩
    · simp only [interpL, hi, hiL]
    · simp only [List.map_cons, hs, hsL]
    · simp only [Term.wsL, hwu, hwL]
      rfl

/-! ## C2: equisatisfiability of the emitted CNF -/

/-- The definitional clauses of every visited node hold in every model. -/
theorem mapM_nodeClauses_valid (M : EModel) :
    ∀ (vs : List Term) (css : List (List (List TLit))),
      vs.mapM nodeClauses = some css → cnfTrue M css.flatten = true
  | [], css, h => by
      simp only [List.mapM_nil, pure, Option.some_inj] at h
      subst h
      rfl
  | v :: vs, css, h => by
      rw [List.mapM_cons] at h
      cases hv : nodeClauses v with
      | none => rw [hv] at h; cases h
      | some cls =>
          rw [hv] at h
          cases hm : vs.mapM nodeClauses with
          | none => rw [hm] at h; cases h
          | some css2 =>
              rw [hm] at h
              simp only [Option.bind_eq_bind, Option.some_bind, pure, Option.some_inj] at h
              subst h
              have ih := mapM_nodeClauses_valid M vs css2 hm
              have h1 := nodeClauses_valid M v cls hv
              unfold cnfTrue at h1 ih ⊢
              rw [List.flatten_cons, List.all_append, h1, ih]
              rfl

/-- **C2.** For every well-sorted Boolean term `t`, the CNF emitted by
`Tseitin::clauses` for `t` — the definitional clauses of its connective
subterms plus the final unit clause for the top literal — is satisfiable
if and only if `t` itself is satisfiable. -/
theorem c2_clauses_equisat (t : Term)
    (hst : Term.sortOf t = true) (hwt : Term.ws t = true)
    (cnf : List (List TLit)) (s1 : TseitinState)
    (h : Tseitin.clauses Tseitin.new t = some (cnf, s1)) :
    satCNF cnf ↔ satTerm t := by
  unfold Tseitin.clauses at h
  cases hsr : simplifyRec Tseitin.new.simpMap t with
  | none =>
      rw [hsr] at h
      simp only [Option.bind_eq_bind, Option.none_bind] at h
      exact Option.noConfusion h
  | some p =>
    obtain ⟨u, c1⟩ := p
    rw [hsr] at h
    simp only [Option.bind_eq_bind, Option.some_bind] at h
    rcases hdv : dagVisit Tseitin.new.seen u with ⟨vs, seen1⟩
    rw [hdv] at h
    cases hcss : vs.mapM nodeClauses with
    | none =>
        rw [hcss] at h
        simp only [Option.bind_eq_bind, Option.none_bind] at h
        exact Option.noConfusion h
    | some css =>
      rw [hcss] at h
      cases htop : termToLit u with
      | none =>
          rw [htop] at h
          simp only [Option.bind_eq_bind, Option.some_bind, Option.none_bind] at h
          exact Option.noConfusion h
      | some top =>
        rw [htop] at h
        simp only [Option.bind_eq_bind, Option.some_bind, Option.some_inj,
          Prod.mk.injEq] at h
        obtain ⟨h2, -⟩ := h
        subst h2
        have hnew : Tseitin.new.simpMap = ([] : Cache) := rfl
        constructor
        · rintro ⟨M, hM⟩
          show ∃ M : EModel, M.truthy t = true
          refine ⟨M, ?_⟩
          unfold cnfTrue at hM
          rw [List.all_append, Bool.and_eq_true] at hM
          obtain ⟨-, htopc⟩ := hM
          have htl : litTrue M top = true := by
            simpa [clauseTrue] using htopc
          have hu : M.truthy u = true := by
            rw [← termToLit_sem M u top htop]
            exact htl
          obtain ⟨⟨hiu, hsu, hwu⟩, -⟩ :=
            (simplify_sem M).1 Tseitin.new.simpMap t
              (by rw [hnew]; exact cacheOK_nil M) hwt u c1 hsr
          show M.isT (interp M t) = true
          rw [← hiu]
          exact hu
        · rintro ⟨M, hM⟩
          refine ⟨M, ?_⟩
          unfold cnfTrue
          rw [List.all_append, Bool.and_eq_true]
          obtain ⟨⟨hiu, hsu, hwu⟩, -⟩ :=
            (simplify_sem M).1 Tseitin.new.simpMap t
              (by rw [hnew]; exact cacheOK_nil M) hwt u c1 hsr
          refine ⟨mapM_nodeClauses_valid M vs css hcss, ?_⟩
          have hu : M.truthy u = true := by
            show M.isT (interp M u) = true
            rw [hiu]
            exact hM
          simp [clauseTrue, termToLit_sem M u top htop, hu]

/-- Witness for C2 at `t = eq (var 0) (var 1)`. -/
theorem c2_clauses_equisat_witness :
    (Term.sortOf (Term.eq (Term.var 0 false) (Term.var 1 false)) = true
      ∧ Term.ws (Term.eq (Term.var 0 false) (Term.var 1 false)) = true
      ∧ Tseitin.clauses Tseitin.new (Term.eq (Term.var 0 false) (Term.var 1 false))
          = some ([[⟨LKind.t, Term.eq (Term.var 0 false) (Term.var 1 false), true⟩]],
              ⟨[(Term.eq (Term.var 0 false) (Term.var 1 false),
                 Term.eq (Term.var 0 false) (Term.var 1 false)),
                (Term.var 1 false, Term.var 1 false),
                (Term.var 0 false, Term.var 0 false)],
               [Term.var 1 false, Term.var 0 false,
                Term.eq (Term.var 0 false) (Term.var 1 false)]⟩))
    ∧ (satCNF [[⟨LKind.t, Term.eq (Term.var 0 false) (Term.var 1 false), true⟩]]
        ↔ satTerm (Term.eq (Term.var 0 false) (Term.var 1 false))) := by
  refine ⟨⟨rfl, rfl, ?_⟩, ?_⟩
  · simp +decide [Tseitin.clauses, Tseitin.new, simplifyRec, simplifyStep, cacheGet, cacheIns,
      dagVisit, dagVisitList, tchildren, nodeClauses, termToLit, unfoldNot, List.mapM, List.mapM.loop]
  · exact c2_clauses_equisat (Term.eq (Term.var 0 false) (Term.var 1 false)) rfl rfl
      [[⟨LKind.t, Term.eq (Term.var 0 false) (Term.var 1 false), true⟩]]
      ⟨[(Term.eq (Term.var 0 false) (Term.var 1 false),
         Term.eq (Term.var 0 false) (Term.var 1 false)),
        (Term.var 1 false, Term.var 1 false),
        (Term.var 0 false, Term.var 0 false)],
       [Term.var 1 false, Term.var 0 false,
        Term.eq (Term.var 0 false) (Term.var 1 false)]⟩ (by
      simp +decide [Tseitin.clauses, Tseitin.new, simplifyRec, simplifyStep, cacheGet, cacheIns,
        dagVisit, dagVisitList, tchildren, nodeClauses, termToLit, unfoldNot, List.mapM, List.mapM.loop])

/-! ## C3: idempotence of the simplifier -/

/-- After a successful run, the input term is in the cache, mapped to its
result (`simplify_rec` lines 164-166, 268-270). -/
theorem cacheGet_after (c : Cache) (t u : Term) (c1 : Cache)
    (h : simplifyRec c t = some (u, c1)) : cacheGet c1 t = some u := by
  unfold simplifyRec at h
  cases hg : cacheGet c t with
  | some v =>
      rw [hg] at h
      simp only [Option.some_inj, Prod.mk.injEq] at h
      obtain ⟨rfl, rfl⟩ := h
      exact hg
  | none =>
      rw [hg] at h
      cases hs : simplifyStep c t with
      | none =>
          rw [hs] at h
          exact Option.noConfusion h
      | some p =>
          obtain ⟨v, c2⟩ := p
          rw [hs] at h
          simp only [Option.some_inj, Prod.mk.injEq] at h
          obtain ⟨rfl, rfl⟩ := h
          simp [cacheGet, cacheIns]

/-- **C3 (amended).** Re-simplifying the *same input* `t` under the state
produced by a first `simplify` call returns the identical result (the
per-term cache hits).  The idempotence equation of the original claim,
`simplify(simplify(t)) = simplify(t)`, fails: see the counterexample. -/
theorem c3_simplify_stable (s : TseitinState) (t : Term) (u : Term) (s1 : TseitinState)
    (h : Tseitin.simplify s t = some (u, s1)) :
    Tseitin.simplify s1 t = some (u, s1) := by
  unfold Tseitin.simplify at h ⊢
  cases hr : simplifyRec s.simpMap t with
  | none =>
      rw [hr] at h
      exact Option.noConfusion h
  | some p =>
      obtain ⟨v, c1⟩ := p
      rw [hr] at h
      simp only [Option.some_inj, Prod.mk.injEq] at h
      obtain ⟨rfl, rfl⟩ := h
      have hget : cacheGet c1 t = some v := cacheGet_after s.simpMap t v c1 hr
      rw [simplifyRec, hget]

/-- **C3 (counterexample).** For `t = and [¬¬x, x]` the first `simplify`
returns `and [x, x]` (the arguments are flattened, sorted and
deduplicated *before* the children are simplified, so the two copies of
`x` produced by `¬¬x ↦ x` survive), and simplifying that output again
returns `and [x]` — so `simplify(simplify(t)) ≠ simplify(t)`. -/
theorem c3_counterexample :
    Tseitin.simplify Tseitin.new
        (Term.and [Term.not (Term.not (Term.var 1 true)), Term.var 1 true])
      = some (Term.and [Term.var 1 true, Term.var 1 true],
          ⟨[(Term.and [Term.not (Term.not (Term.var 1 true)), Term.var 1 true],
             Term.and [Term.var 1 true, Term.var 1 true]),
            (Term.not (Term.not (Term.var 1 true)), Term.var 1 true),
            (Term.not (Term.var 1 true), Term.not (Term.var 1 true)),
            (Term.var 1 true, Term.var 1 true)], []⟩)
    ∧ Tseitin.simplify
        ⟨[(Term.and [Term.not (Term.not (Term.var 1 true)), Term.var 1 true],
           Term.and [Term.var 1 true, Term.var 1 true]),
          (Term.not (Term.not (Term.var 1 true)), Term.var 1 true),
          (Term.not (Term.var 1 true), Term.not (Term.var 1 true)),
          (Term.var 1 true, Term.var 1 true)], []⟩
        (Term.and [Term.var 1 true, Term.var 1 true])
      = some (Term.and [Term.var 1 true],
          ⟨[(Term.and [Term.var 1 true, Term.var 1 true], Term.and [Term.var 1 true]),
            (Term.and [Term.not (Term.not (Term.var 1 true)), Term.var 1 true],
             Term.and [Term.var 1 true, Term.var 1 true]),
            (Term.not (Term.not (Term.var 1 true)), Term.var 1 true),
            (Term.not (Term.var 1 true), Term.not (Term.var 1 true)),
            (Term.var 1 true, Term.var 1 true)], []⟩)
    ∧ Term.and [Term.var 1 true] ≠ Term.and [Term.var 1 true, Term.var 1 true] := by
  refine ⟨?_, ?_, by decide⟩
  · simp +decide [Tseitin.simplify, Tseitin.new, simplifyRec, simplifyStep, simplifyList,
      cacheGet, cacheIns, flattenConn, flattenConnRec, sortDedup, dedupAdj,
      List.insertionSort, List.orderedInsert, termLe, Term.cmp, Term.cmpL, Term.ctorIdx]
  · simp +decide [Tseitin.simplify, simplifyRec, simplifyStep, simplifyList,
      cacheGet, cacheIns, flattenConn, flattenConnRec, sortDedup, dedupAdj,
      List.insertionSort, List.orderedInsert, termLe, Term.cmp, Term.cmpL, Term.ctorIdx]

/-- Witness for the amended C3 at `t = and [¬¬x, x]`. -/
theorem c3_simplify_stable_witness :
    Tseitin.simplify Tseitin.new
        (Term.and [Term.not (Term.not (Term.var 1 true)), Term.var 1 true])
      = some (Term.and [Term.var 1 true, Term.var 1 true],
          ⟨[(Term.and [Term.not (Term.not (Term.var 1 true)), Term.var 1 true],
             Term.and [Term.var 1 true, Term.var 1 true]),
            (Term.not (Term.not (Term.var 1 true)), Term.var 1 true),
            (Term.not (Term.var 1 true), Term.not (Term.var 1 true)),
            (Term.var 1 true, Term.var 1 true)], []⟩)
    ∧ Tseitin.simplify
        ⟨[(Term.and [Term.not (Term.not (Term.var 1 true)), Term.var 1 true],
           Term.and [Term.var 1 true, Term.var 1 true]),
          (Term.not (Term.not (Term.var 1 true)), Term.var 1 true),
          (Term.not (Term.var 1 true), Term.not (Term.var 1 true)),
          (Term.var 1 true, Term.var 1 true)], []⟩
        (Term.and [Term.not (Term.not (Term.var 1 true)), Term.var 1 true])
      = some (Term.and [Term.var 1 true, Term.var 1 true],
          ⟨[(Term.and [Term.not (Term.not (Term.var 1 true)), Term.var 1 true],
             Term.and [Term.var 1 true, Term.var 1 true]),
            (Term.not (Term.not (Term.var 1 true)), Term.var 1 true),
            (Term.not (Term.var 1 true), Term.not (Term.var 1 true)),
            (Term.var 1 true, Term.var 1 true)], []⟩) := by
  constructor
  · simp +decide [Tseitin.simplify, Tseitin.new, simplifyRec, simplifyStep, simplifyList,
      cacheGet, cacheIns, flattenConn, flattenConnRec, sortDedup, dedupAdj,
      List.insertionSort, List.orderedInsert, termLe, Term.cmp, Term.cmpL, Term.ctorIdx]
  · exact c3_simplify_stable Tseitin.new
      (Term.and [Term.not (Term.not (Term.var 1 true)), Term.var 1 true])
      (Term.and [Term.var 1 true, Term.var 1 true])
      ⟨[(Term.and [Term.not (Term.not (Term.var 1 true)), Term.var 1 true],
         Term.and [Term.var 1 true, Term.var 1 true]),
        (Term.not (Term.not (Term.var 1 true)), Term.var 1 true),
        (Term.not (Term.var 1 true), Term.not (Term.var 1 true)),
        (Term.var 1 true, Term.var 1 true)], []⟩
      (by simp +decide [Tseitin.simplify, Tseitin.new, simplifyRec, simplifyStep, simplifyList,
        cacheGet, cacheIns, flattenConn, flattenConnRec, sortDedup, dedupAdj,
        List.insertionSort, List.orderedInsert, termLe, Term.cmp, Term.cmpL, Term.ctorIdx])

/-! ## C4: `and`/`or` flattening, sorting, deduplication, absorption

The source sorts the flattened argument vector by hash-consed term id and
removes adjacent duplicates; `Term.cmp` stands in for the id order.  The
lemmas below establish that it is a linear order (reflexive-antisymmetric
via `Term.eq_of_cmp`, antisymmetric via `Term.cmp_swap`, transitive via
`Term.cmpTransAux`), so the sorted, deduplicated output is pairwise
strictly increasing. -/

def TermLt (a b : Term) : Prop := Term.cmp a b = Ordering.lt

theorem natCompare_swap (m n : Nat) : (compare m n).swap = compare n m := by
  rcases Nat.lt_trichotomy m n with h | h | h
  · rw [Nat.compare_eq_lt.2 h, Nat.compare_eq_gt.2 h]
    rfl
  · subst h
    rw [Nat.compare_eq_eq.2 rfl]
    rfl
  · rw [Nat.compare_eq_gt.2 h, Nat.compare_eq_lt.2 h]
    rfl

theorem boolCompare_swap (a b : Bool) : (compare a b).swap = compare b a := by
  cases a <;> cases b <;> decide

theorem boolCompare_eq (a b : Bool) : compare a b = Ordering.eq ↔ a = b := by
  cases a <;> cases b <;> decide

theorem boolCompare_lt_trans {a b c : Bool} (h1 : compare a b = Ordering.lt)
    (h2 : compare b c = Ordering.lt) : compare a c = Ordering.lt := by
  revert h1 h2
  cases a <;> cases b <;> cases c <;> decide

theorem ordThen_swap (x y : Ordering) : (x.then y).swap = x.swap.then y.swap := by
  cases x <;> rfl

theorem Term.cmp_idx : ∀ a b : Term, a.ctorIdx ≠ b.ctorIdx →
    Term.cmp a b = compare a.ctorIdx b.ctorIdx := by
  intro a b h
  cases a <;> cases b <;>
    first
      | exact absurd rfl h
      | simp [Term.cmp, Term.ctorIdx]

mutual

theorem Term.eq_of_cmp : ∀ a b : Term, Term.cmp a b = Ordering.eq → a = b
  | .boolc a, .boolc b => by
      simp only [Term.cmp, boolCompare_eq]
      intro h
      rw [h]
  | .tybool, .tybool => by
      intro h
      rfl
  | .var m bm, .var n bn => by
      simp only [Term.cmp, Ordering.then_eq_eq, Nat.compare_eq_eq, boolCompare_eq]
      intro h
      rw [h.1, h.2]
  | .app f as bf, .app g bs bg => by
      simp only [Term.cmp, Ordering.then_eq_eq, boolCompare_eq]
      intro h
      rw [Term.eq_of_cmp f g h.1.1, Term.eqL_of_cmpL as bs h.1.2, h.2]
  | .not a, .not b => by
      intro h
      rw [Term.eq_of_cmp a b h]
  | .and as, .and bs => by
      intro h
      rw [Term.eqL_of_cmpL as bs h]
  | .or as, .or bs => by
      intro h
      rw [Term.eqL_of_cmpL as bs h]
  | .imply as, .imply bs => by
      intro h
      rw [Term.eqL_of_cmpL as bs h]
  | .eq a b, .eq c d => by
      simp only [Term.cmp, Ordering.then_eq_eq]
      intro h
      rw [Term.eq_of_cmp a c h.1, Term.eq_of_cmp b d h.2]
  | .distinct as, .distinct bs => by
      intro h
      rw [Term.eqL_of_cmpL as bs h]
  | .ite a b c, .ite d e f => by
      simp only [Term.cmp, Ordering.then_eq_eq]
      intro h
      rw [Term.eq_of_cmp a d h.1.1, Term.eq_of_cmp b e h.1.2, Term.eq_of_cmp c f h.2]
  | .boolc _, .tybool | .boolc _, .var _ _ | .boolc _, .app _ _ _ | .boolc _, .not _
  | .boolc _, .and _ | .boolc _, .or _ | .boolc _, .imply _ | .boolc _, .eq _ _
  | .boolc _, .distinct _ | .boolc _, .ite _ _ _ | .tybool, .boolc _ | .tybool, .var _ _
  | .tybool, .app _ _ _ | .tybool, .not _ | .tybool, .and _ | .tybool, .or _
  | .tybool, .imply _ | .tybool, .eq _ _ | .tybool, .distinct _ | .tybool, .ite _ _ _
  | .var _ _, .boolc _ | .var _ _, .tybool | .var _ _, .app _ _ _ | .var _ _, .not _
  | .var _ _, .and _ | .var _ _, .or _ | .var _ _, .imply _ | .var _ _, .eq _ _
  | .var _ _, .distinct _ | .var _ _, .ite _ _ _ | .app _ _ _, .boolc _ | .app _ _ _, .tybool
  | .app _ _ _, .var _ _ | .app _ _ _, .not _ | .app _ _ _, .and _ | .app _ _ _, .or _
  | .app _ _ _, .imply _ | .app _ _ _, .eq _ _ | .app _ _ _, .distinct _ | .app _ _ _, .ite _ _ _
  | .not _, .boolc _ | .not _, .tybool | .not _, .var _ _ | .not _, .app _ _ _
  | .not _, .and _ | .not _, .or _ | .not _, .imply _ | .not _, .eq _ _
  | .not _, .distinct _ | .not _, .ite _ _ _ | .and _, .boolc _ | .and _, .tybool
  | .and _, .var _ _ | .and _, .app _ _ _ | .and _, .not _ | .and _, .or _
  | .and _, .imply _ | .and _, .eq _ _ | .and _, .distinct _ | .and _, .ite _ _ _
  | .or _, .boolc _ | .or _, .tybool | .or _, .var _ _ | .or _, .app _ _ _
  | .or _, .not _ | .or _, .and _ | .or _, .imply _ | .or _, .eq _ _
  | .or _, .distinct _ | .or _, .ite _ _ _ | .imply _, .boolc _ | .imply _, .tybool
  | .imply _, .var _ _ | .imply _, .app _ _ _ | .imply _, .not _ | .imply _, .and _
  | .imply _, .or _ | .imply _, .eq _ _ | .imply _, .distinct _ | .imply _, .ite _ _ _
  | .eq _ _, .boolc _ | .eq _ _, .tybool | .eq _ _, .var _ _ | .eq _ _, .app _ _ _
  | .eq _ _, .not _ | .eq _ _, .and _ | .eq _ _, .or _ | .eq _ _, .imply _
  | .eq _ _, .distinct _ | .eq _ _, .ite _ _ _ | .distinct _, .boolc _ | .distinct _, .tybool
  | .distinct _, .var _ _ | .distinct _, .app _ _ _ | .distinct _, .not _ | .distinct _, .and _
  | .distinct _, .or _ | .distinct _, .imply _ | .distinct _, .eq _ _ | .distinct _, .ite _ _ _
  | .ite _ _ _, .boolc _ | .ite _ _ _, .tybool | .ite _ _ _, .var _ _ | .ite _ _ _, .app _ _ _
  | .ite _ _ _, .not _ | .ite _ _ _, .and _ | .ite _ _ _, .or _ | .ite _ _ _, .imply _
  | .ite _ _ _, .eq _ _ | .ite _ _ _, .distinct _
    => by simp [Term.cmp, Term.ctorIdx, Nat.compare_eq_eq]

theorem Term.eqL_of_cmpL : ∀ as bs : List Term, Term.cmpL as bs = Ordering.eq → as = bs
  | [], [] => by
      intro h
      rfl
  | a :: as, b :: bs => by
      simp only [Term.cmpL, Ordering.then_eq_eq]
      intro h
      rw [Term.eq_of_cmp a b h.1, Term.eqL_of_cmpL as bs h.2]
  | [], _ :: _ => by simp [Term.cmpL]
  | _ :: _, [] => by simp [Term.cmpL]

end

mutual

theorem Term.cmp_swap : ∀ a b : Term, (Term.cmp a b).swap = Term.cmp b a
  | .boolc a, .boolc b => by
      simp only [Term.cmp, boolCompare_swap]
  | .tybool, .tybool => by rfl
  | .var m bm, .var n bn => by
      simp only [Term.cmp, ordThen_swap, natCompare_swap, boolCompare_swap]
  | .app f as bf, .app g bs bg => by
      simp only [Term.cmp, ordThen_swap, boolCompare_swap,
        Term.cmp_swap f g, Term.cmpL_swap as bs]
  | .not a, .not b => Term.cmp_swap a b
  | .and as, .and bs => Term.cmpL_swap as bs
  | .or as, .or bs => Term.cmpL_swap as bs
  | .imply as, .imply bs => Term.cmpL_swap as bs
  | .eq a b, .eq c d => by
      simp only [Term.cmp, ordThen_swap, Term.cmp_swap a c, Term.cmp_swap b d]
  | .distinct as, .distinct bs => Term.cmpL_swap as bs
  | .ite a b c, .ite d e f => by
      simp only [Term.cmp, ordThen_swap, Term.cmp_swap a d, Term.cmp_swap b e,
        Term.cmp_swap c f]
  | .boolc _, .tybool | .boolc _, .var _ _ | .boolc _, .app _ _ _ | .boolc _, .not _
  | .boolc _, .and _ | .boolc _, .or _ | .boolc _, .imply _ | .boolc _, .eq _ _
  | .boolc _, .distinct _ | .boolc _, .ite _ _ _ | .tybool, .boolc _ | .tybool, .var _ _
  | .tybool, .app _ _ _ | .tybool, .not _ | .tybool, .and _ | .tybool, .or _
  | .tybool, .imply _ | .tybool, .eq _ _ | .tybool, .distinct _ | .tybool, .ite _ _ _
  | .var _ _, .boolc _ | .var _ _, .tybool | .var _ _, .app _ _ _ | .var _ _, .not _
  | .var _ _, .and _ | .var _ _, .or _ | .var _ _, .imply _ | .var _ _, .eq _ _
  | .var _ _, .distinct _ | .var _ _, .ite _ _ _ | .app _ _ _, .boolc _ | .app _ _ _, .tybool
  | .app _ _ _, .var _ _ | .app _ _ _, .not _ | .app _ _ _, .and _ | .app _ _ _, .or _
  | .app _ _ _, .imply _ | .app _ _ _, .eq _ _ | .app _ _ _, .distinct _ | .app _ _ _, .ite _ _ _
  | .not _, .boolc _ | .not _, .tybool | .not _, .var _ _ | .not _, .app _ _ _
  | .not _, .and _ | .not _, .or _ | .not _, .imply _ | .not _, .eq _ _
  | .not _, .distinct _ | .not _, .ite _ _ _ | .and _, .boolc _ | .and _, .tybool
  | .and _, .var _ _ | .and _, .app _ _ _ | .and _, .not _ | .and _, .or _
  | .and _, .imply _ | .and _, .eq _ _ | .and _, .distinct _ | .and _, .ite _ _ _
  | .or _, .boolc _ | .or _, .tybool | .or _, .var _ _ | .or _, .app _ _ _
  | .or _, .not _ | .or _, .and _ | .or _, .imply _ | .or _, .eq _ _
  | .or _, .distinct _ | .or _, .ite _ _ _ | .imply _, .boolc _ | .imply _, .tybool
  | .imply _, .var _ _ | .imply _, .app _ _ _ | .imply _, .not _ | .imply _, .and _
  | .imply _, .or _ | .imply _, .eq _ _ | .imply _, .distinct _ | .imply _, .ite _ _ _
  | .eq _ _, .boolc _ | .eq _ _, .tybool | .eq _ _, .var _ _ | .eq _ _, .app _ _ _
  | .eq _ _, .not _ | .eq _ _, .and _ | .eq _ _, .or _ | .eq _ _, .imply _
  | .eq _ _, .distinct _ | .eq _ _, .ite _ _ _ | .distinct _, .boolc _ | .distinct _, .tybool
  | .distinct _, .var _ _ | .distinct _, .app _ _ _ | .distinct _, .not _ | .distinct _, .and _
  | .distinct _, .or _ | .distinct _, .imply _ | .distinct _, .eq _ _ | .distinct _, .ite _ _ _
  | .ite _ _ _, .boolc _ | .ite _ _ _, .tybool | .ite _ _ _, .var _ _ | .ite _ _ _, .app _ _ _
  | .ite _ _ _, .not _ | .ite _ _ _, .and _ | .ite _ _ _, .or _ | .ite _ _ _, .imply _
  | .ite _ _ _, .eq _ _ | .ite _ _ _, .distinct _
    => by simp [Term.cmp, Term.ctorIdx, natCompare_swap]

theorem Term.cmpL_swap : ∀ as bs : List Term, (Term.cmpL as bs).swap = Term.cmpL bs as
  | [], [] => by rfl
  | [], _ :: _ => by rfl
  | _ :: _, [] => by rfl
  | a :: as, b :: bs => by
      simp only [Term.cmpL, ordThen_swap, Term.cmp_swap a b, Term.cmpL_swap as bs]

end

theorem Term.cmp_self_eq (a : Term) : Term.cmp a a = Ordering.eq := by
  have h := Term.cmp_swap a a
  cases hc : Term.cmp a a <;> rw [hc] at h <;> first | rfl | exact absurd h (by decide)

theorem Term.cmpL_self_eq (as : List Term) : Term.cmpL as as = Ordering.eq := by
  have h := Term.cmpL_swap as as
  cases hc : Term.cmpL as as <;> rw [hc] at h <;> first | rfl | exact absurd h (by decide)

mutual

theorem Term.cmpTransAux : ∀ (k : Nat) (a b c : Term),
    Term.size a + Term.size b + Term.size c ≤ k →
    Term.cmp a b = Ordering.lt → Term.cmp b c = Ordering.lt → Term.cmp a c = Ordering.lt
  | 0, a, b, c, hsz, _, _ => by
      have h1 := Term.size_pos a
      have h2 := Term.size_pos b
      have h3 := Term.size_pos c
      omega
  | Nat.succ k, a, b, c, hsz, hab, hbc => by
      by_cases h1 : Term.ctorIdx a = Term.ctorIdx b
      · by_cases h2 : Term.ctorIdx b = Term.ctorIdx c
        · cases a <;> cases b <;> (try simp [Term.ctorIdx] at h1) <;>
            cases c <;> (try simp [Term.ctorIdx] at h2)
          · rename_i x y z
            simp only [Term.cmp] at hab hbc ⊢
            exact boolCompare_lt_trans hab hbc
          · simp only [Term.cmp] at hab
            exact absurd hab (by decide)
          · rename_i m bm n bn p bp
            simp only [Term.cmp, Ordering.then_eq_lt, Ordering.then_eq_eq,
              Nat.compare_eq_lt, Nat.compare_eq_eq] at hab hbc ⊢
            rcases hab with h | ⟨he, hb⟩ <;> rcases hbc with h' | ⟨he', hb'⟩
            · exact Or.inl (by omega)
            · exact Or.inl (by omega)
            · exact Or.inl (by omega)
            · exact Or.inr ⟨by omega, boolCompare_lt_trans hb hb'⟩
          · rename_i f as bf g bs bg f2 cs bf2
            simp only [Term.size] at hsz
            simp only [Term.cmp, Ordering.then_eq_lt, Ordering.then_eq_eq] at hab hbc ⊢
            rcases hab with (h | ⟨he, hl⟩) | ⟨⟨he, hle⟩, hbool⟩ <;>
              rcases hbc with (h' | ⟨he', hl'⟩) | ⟨⟨he', hle'⟩, hbool'⟩
            · exact Or.inl (Or.inl (Term.cmpTransAux k f g f2 (by omega) h h'))
            · obtain rfl := Term.eq_of_cmp g f2 he'
              exact Or.inl (Or.inl h)
            · obtain rfl := Term.eq_of_cmp g f2 he'
              exact Or.inl (Or.inl h)
            · obtain rfl := Term.eq_of_cmp f g he
              exact Or.inl (Or.inl h')
            · obtain rfl := Term.eq_of_cmp f g he
              obtain rfl := Term.eq_of_cmp f f2 he'
              exact Or.inl (Or.inr ⟨Term.cmp_self_eq f,
                Term.cmpLTransAux k as bs cs (by omega) hl hl'⟩)
            · obtain rfl := Term.eq_of_cmp f g he
              obtain rfl := Term.eq_of_cmp f f2 he'
              obtain rfl := Term.eqL_of_cmpL bs cs hle'
              exact Or.inl (Or.inr ⟨Term.cmp_self_eq f, hl⟩)
            · obtain rfl := Term.eq_of_cmp f g he
              obtain rfl := Term.eqL_of_cmpL as bs hle
              exact Or.inl (Or.inl h')
            · obtain rfl := Term.eq_of_cmp f g he
              obtain rfl := Term.eqL_of_cmpL as bs hle
              obtain rfl := Term.eq_of_cmp f f2 he'
              exact Or.inl (Or.inr ⟨Term.cmp_self_eq f, hl'⟩)
            · obtain rfl := Term.eq_of_cmp f g he
              obtain rfl := Term.eqL_of_cmpL as bs hle
              obtain rfl := Term.eq_of_cmp f f2 he'
              obtain rfl := Term.eqL_of_cmpL as cs hle'
              exact Or.inr ⟨⟨Term.cmp_self_eq f, Term.cmpL_self_eq as⟩,
                boolCompare_lt_trans hbool hbool'⟩
          · rename_i x y z
            simp only [Term.size] at hsz
            simp only [Term.cmp] at hab hbc ⊢
            exact Term.cmpTransAux k x y z (by omega) hab hbc
          · rename_i xs ys zs
            simp only [Term.size] at hsz
            simp only [Term.cmp] at hab hbc ⊢
            exact Term.cmpLTransAux k xs ys zs (by omega) hab hbc
          · rename_i xs ys zs
            simp only [Term.size] at hsz
            simp only [Term.cmp] at hab hbc ⊢
            exact Term.cmpLTransAux k xs ys zs (by omega) hab hbc
          · rename_i xs ys zs
            simp only [Term.size] at hsz
            simp only [Term.cmp] at hab hbc ⊢
            exact Term.cmpLTransAux k xs ys zs (by omega) hab hbc
          · rename_i a1 a2 b1 b2 c1 c2
            simp only [Term.size] at hsz
            simp only [Term.cmp, Ordering.then_eq_lt, Ordering.then_eq_eq] at hab hbc ⊢
            rcases hab with h | ⟨he, hl⟩ <;> rcases hbc with h' | ⟨he', hl'⟩
            · exact Or.inl (Term.cmpTransAux k a1 b1 c1 (by omega) h h')
            · obtain rfl := Term.eq_of_cmp b1 c1 he'
              exact Or.inl h
            · obtain rfl := Term.eq_of_cmp a1 b1 he
              exact Or.inl h'
            · obtain rfl := Term.eq_of_cmp a1 b1 he
              obtain rfl := Term.eq_of_cmp a1 c1 he'
              exact Or.inr ⟨Term.cmp_self_eq a1,
                Term.cmpTransAux k a2 b2 c2 (by omega) hl hl'⟩
          · rename_i xs ys zs
            simp only [Term.size] at hsz
            simp only [Term.cmp] at hab hbc ⊢
            exact Term.cmpLTransAux k xs ys zs (by omega) hab hbc
          · rename_i a1 a2 a3 b1 b2 b3 c1 c2 c3
            simp only [Term.size] at hsz
            simp only [Term.cmp, Ordering.then_eq_lt, Ordering.then_eq_eq] at hab hbc ⊢
            rcases hab with (h | ⟨he, hl⟩) | ⟨⟨he, hle⟩, h3⟩ <;>
              rcases hbc with (h' | ⟨he', hl'⟩) | ⟨⟨he', hle'⟩, h3'⟩
            · exact Or.inl (Or.inl (Term.cmpTransAux k a1 b1 c1 (by omega) h h'))
            · obtain rfl := Term.eq_of_cmp b1 c1 he'
              exact Or.inl (Or.inl h)
            · obtain rfl := Term.eq_of_cmp b1 c1 he'
              exact Or.inl (Or.inl h)
            · obtain rfl := Term.eq_of_cmp a1 b1 he
              exact Or.inl (Or.inl h')
            · obtain rfl := Term.eq_of_cmp a1 b1 he
              obtain rfl := Term.eq_of_cmp a1 c1 he'
              exact Or.inl (Or.inr ⟨Term.cmp_self_eq a1,
                Term.cmpTransAux k a2 b2 c2 (by omega) hl hl'⟩)
            · obtain rfl := Term.eq_of_cmp a1 b1 he
              obtain rfl := Term.eq_of_cmp a1 c1 he'
              obtain rfl := Term.eq_of_cmp b2 c2 hle'
              exact Or.inl (Or.inr ⟨Term.cmp_self_eq a1, hl⟩)
            · obtain rfl := Term.eq_of_cmp a1 b1 he
              obtain rfl := Term.eq_of_cmp a2 b2 hle
              exact Or.inl (Or.inl h')
            · obtain rfl := Term.eq_of_cmp a1 b1 he
              obtain rfl := Term.eq_of_cmp a2 b2 hle
              obtain rfl := Term.eq_of_cmp a1 c1 he'
              exact Or.inl (Or.inr ⟨Term.cmp_self_eq a1, hl'⟩)
            · obtain rfl := Term.eq_of_cmp a1 b1 he
              obtain rfl := Term.eq_of_cmp a2 b2 hle
              obtain rfl := Term.eq_of_cmp a1 c1 he'
              obtain rfl := Term.eq_of_cmp a2 c2 hle'
              exact Or.inr ⟨⟨Term.cmp_self_eq a1, Term.cmp_self_eq a2⟩,
                Term.cmpTransAux k a3 b3 c3 (by omega) h3 h3'⟩
        · rw [Term.cmp_idx b c h2, Nat.compare_eq_lt] at hbc
          rw [Term.cmp_idx a c (by omega), Nat.compare_eq_lt]
          omega
      · rw [Term.cmp_idx a b h1, Nat.compare_eq_lt] at hab
        by_cases h2 : Term.ctorIdx b = Term.ctorIdx c
        · rw [Term.cmp_idx a c (by omega), Nat.compare_eq_lt]
          omega
        · rw [Term.cmp_idx b c h2, Nat.compare_eq_lt] at hbc
          rw [Term.cmp_idx a c (by omega), Nat.compare_eq_lt]
          omega

theorem Term.cmpLTransAux : ∀ (k : Nat) (as bs cs : List Term),
    Term.sizeL as + Term.sizeL bs + Term.sizeL cs < k →
    Term.cmpL as bs = Ordering.lt → Term.cmpL bs cs = Ordering.lt →
    Term.cmpL as cs = Ordering.lt
  | _, [], [], _, _, hab, _ => by simp [Term.cmpL] at hab
  | _, [], _ :: _, [], _, _, hbc => by simp [Term.cmpL] at hbc
  | _, [], _ :: _, _ :: _, _, _, _ => by simp [Term.cmpL]
  | _, _ :: _, [], _, _, hab, _ => by simp [Term.cmpL] at hab
  | _, _ :: _, _ :: _, [], _, _, hbc => by simp [Term.cmpL] at hbc
  | 0, a :: as, b :: bs, c :: cs, hsz, _, _ => by omega
  | Nat.succ k, a :: as, b :: bs, c :: cs, hsz, hab, hbc => by
      simp only [Term.sizeL] at hsz
      have ha := Term.size_pos a
      have hb := Term.size_pos b
      have hc := Term.size_pos c
      simp only [Term.cmpL, Ordering.then_eq_lt, Ordering.then_eq_eq] at hab hbc ⊢
      rcases hab with h | ⟨he, hl⟩ <;> rcases hbc with h' | ⟨he', hl'⟩
      · exact Or.inl (Term.cmpTransAux k a b c (by omega) h h')
      · obtain rfl := Term.eq_of_cmp b c he'
        exact Or.inl h
      · obtain rfl := Term.eq_of_cmp a b he
        exact Or.inl h'
      · obtain rfl := Term.eq_of_cmp a b he
        obtain rfl := Term.eq_of_cmp a c he'
        exact Or.inr ⟨Term.cmp_self_eq a, Term.cmpLTransAux k as bs cs (by omega) hl hl'⟩

end

theorem Term.cmp_lt_trans {a b c : Term} (hab : Term.cmp a b = Ordering.lt)
    (hbc : Term.cmp b c = Ordering.lt) : Term.cmp a c = Ordering.lt :=
  Term.cmpTransAux (Term.size a + Term.size b + Term.size c) a b c (Nat.le_refl _) hab hbc

theorem termLe_total (a b : Term) : termLe a b ∨ termLe b a := by
  by_cases h : Term.cmp a b = Ordering.gt
  · right
    have hs := Term.cmp_swap a b
    rw [h] at hs
    unfold termLe
    rw [← hs]
    decide
  · exact Or.inl h

instance : IsTotal Term termLe := ⟨termLe_total⟩

instance : IsTrans Term termLe := by
  refine ⟨fun a b c hab hbc => ?_⟩
  unfold termLe at hab hbc ⊢
  cases hx : Term.cmp a b with
  | gt => exact absurd hx hab
  | eq =>
      obtain rfl := Term.eq_of_cmp a b hx
      exact hbc
  | lt =>
      cases hy : Term.cmp b c with
      | gt => exact absurd hy hbc
      | eq =>
          obtain rfl := Term.eq_of_cmp b c hy
          rw [hx]
          decide
      | lt =>
          rw [Term.cmp_lt_trans hx hy]
          decide

theorem termLt_of_le_of_ne {a b : Term} (h : termLe a b) (hne : a ≠ b) : TermLt a b := by
  unfold termLe at h
  unfold TermLt
  cases hx : Term.cmp a b with
  | lt => rfl
  | eq => exact absurd (Term.eq_of_cmp a b hx) hne
  | gt => exact absurd hx h

theorem termLt_of_lt_of_le {a b c : Term} (h1 : TermLt a b) (h2 : termLe b c) : TermLt a c := by
  unfold TermLt at h1 ⊢
  unfold termLe at h2
  cases hy : Term.cmp b c with
  | gt => exact absurd hy h2
  | eq =>
      obtain rfl := Term.eq_of_cmp b c hy
      exact h1
  | lt => exact Term.cmp_lt_trans h1 hy

theorem pairwise_dedupAdj : ∀ l : List Term, List.Sorted termLe l →
    List.Pairwise TermLt (dedupAdj l)
  | [], _ => by simp [dedupAdj]
  | [a], _ => by simp [dedupAdj]
  | a :: b :: rest, h => by
      rw [List.sorted_cons] at h
      obtain ⟨hall, hs⟩ := h
      by_cases hab : a = b
      · simp only [dedupAdj, if_pos hab]
        exact pairwise_dedupAdj (b :: rest) hs
      · simp only [dedupAdj, if_neg hab]
        refine List.Pairwise.cons ?_ (pairwise_dedupAdj (b :: rest) hs)
        intro x hx
        rw [mem_dedupAdj] at hx
        have hab2 : TermLt a b := termLt_of_le_of_ne (hall b (by simp)) hab
        rcases List.mem_cons.mp hx with rfl | hx2
        · exact hab2
        · have hbx : termLe b x := (List.sorted_cons.mp hs).1 x hx2
          exact termLt_of_lt_of_le hab2 hbx

theorem pairwise_sortDedup (l : List Term) : List.Pairwise TermLt (sortDedup l) :=
  pairwise_dedupAdj _ (List.sorted_insertionSort termLe l)

theorem pairwise_flattenConn (conn : Conn) (args : List Term) :
    List.Pairwise TermLt (flattenConn conn args) :=
  pairwise_sortDedup _

theorem flattenConnRec_and_shape : ∀ (l : List Term) (x : Term),
    x ∈ flattenConnRec Conn.and l → (∀ ys, x ≠ Term.and ys) ∧ x ≠ Term.boolc true
  | [], x, h => by rw [flattenConnRec] at h; cases h
  | .boolc true :: ts, x, h => by
      simp only [flattenConnRec, List.nil_append] at h
      exact flattenConnRec_and_shape ts x h
  | .boolc false :: ts, x, h => by
      simp only [flattenConnRec, List.singleton_append, List.mem_cons] at h
      rcases h with rfl | h1
      · exact ⟨fun ys => by simp, by simp⟩
      · exact flattenConnRec_and_shape ts x h1
  | .and args2 :: ts, x, h => by
      simp only [flattenConnRec] at h
      rcases List.mem_append.mp h with h1 | h1
      · exact flattenConnRec_and_shape args2 x h1
      · exact flattenConnRec_and_shape ts x h1
  | .or as :: ts, x, h => by
      simp only [flattenConnRec, List.singleton_append, List.mem_cons] at h
      rcases h with rfl | h1
      · exact ⟨fun ys => by simp, by simp⟩
      · exact flattenConnRec_and_shape ts x h1
  | .tybool :: ts, x, h => by
      simp only [flattenConnRec, List.singleton_append, List.mem_cons] at h
      rcases h with rfl | h1
      · exact ⟨fun ys => by simp, by simp⟩
      · exact flattenConnRec_and_shape ts x h1
  | .var n bs :: ts, x, h => by
      simp only [flattenConnRec, List.singleton_append, List.mem_cons] at h
      rcases h with rfl | h1
      · exact ⟨fun ys => by simp, by simp⟩
      · exact flattenConnRec_and_shape ts x h1
  | .app f as bf :: ts, x, h => by
      simp only [flattenConnRec, List.singleton_append, List.mem_cons] at h
      rcases h with rfl | h1
      · exact ⟨fun ys => by simp, by simp⟩
      · exact flattenConnRec_and_shape ts x h1
  | .not a :: ts, x, h => by
      simp only [flattenConnRec, List.singleton_append, List.mem_cons] at h
      rcases h with rfl | h1
      · exact ⟨fun ys => by simp, by simp⟩
      · exact flattenConnRec_and_shape ts x h1
  | .imply as :: ts, x, h => by
      simp only [flattenConnRec, List.singleton_append, List.mem_cons] at h
      rcases h with rfl | h1
      · exact ⟨fun ys => by simp, by simp⟩
      · exact flattenConnRec_and_shape ts x h1
  | .eq a b :: ts, x, h => by
      simp only [flattenConnRec, List.singleton_append, List.mem_cons] at h
      rcases h with rfl | h1
      · exact ⟨fun ys => by simp, by simp⟩
      · exact flattenConnRec_and_shape ts x h1
  | .distinct as :: ts, x, h => by
      simp only [flattenConnRec, List.singleton_append, List.mem_cons] at h
      rcases h with rfl | h1
      · exact ⟨fun ys => by simp, by simp⟩
      · exact flattenConnRec_and_shape ts x h1
  | .ite a b c2 :: ts, x, h => by
      simp only [flattenConnRec, List.singleton_append, List.mem_cons] at h
      rcases h with rfl | h1
      · exact ⟨fun ys => by simp, by simp⟩
      · exact flattenConnRec_and_shape ts x h1
termination_by l => Term.sizeL l
decreasing_by all_goals (simp only [Term.sizeL, Term.size]; omega)

theorem flattenConnRec_or_shape : ∀ (l : List Term) (x : Term),
    x ∈ flattenConnRec Conn.or l → (∀ ys, x ≠ Term.or ys) ∧ x ≠ Term.boolc false
  | [], x, h => by rw [flattenConnRec] at h; cases h
  | .boolc false :: ts, x, h => by
      simp only [flattenConnRec, List.nil_append] at h
      exact flattenConnRec_or_shape ts x h
  | .boolc true :: ts, x, h => by
      simp only [flattenConnRec, List.singleton_append, List.mem_cons] at h
      rcases h with rfl | h1
      · exact ⟨fun ys => by simp, by simp⟩
      · exact flattenConnRec_or_shape ts x h1
  | .or args2 :: ts, x, h => by
      simp only [flattenConnRec] at h
      rcases List.mem_append.mp h with h1 | h1
      · exact flattenConnRec_or_shape args2 x h1
      · exact flattenConnRec_or_shape ts x h1
  | .and as :: ts, x, h => by
      simp only [flattenConnRec, List.singleton_append, List.mem_cons] at h
      rcases h with rfl | h1
      · exact ⟨fun ys => by simp, by simp⟩
      · exact flattenConnRec_or_shape ts x h1
  | .tybool :: ts, x, h => by
      simp only [flattenConnRec, List.singleton_append, List.mem_cons] at h
      rcases h with rfl | h1
      · exact ⟨fun ys => by simp, by simp⟩
      · exact flattenConnRec_or_shape ts x h1
  | .var n bs :: ts, x, h => by
      simp only [flattenConnRec, List.singleton_append, List.mem_cons] at h
      rcases h with rfl | h1
      · exact ⟨fun ys => by simp, by simp⟩
      · exact flattenConnRec_or_shape ts x h1
  | .app f as bf :: ts, x, h => by
      simp only [flattenConnRec, List.singleton_append, List.mem_cons] at h
      rcases h with rfl | h1
      · exact ⟨fun ys => by simp, by simp⟩
      · exact flattenConnRec_or_shape ts x h1
  | .not a :: ts, x, h => by
      simp only [flattenConnRec, List.singleton_append, List.mem_cons] at h
      rcases h with rfl | h1
      · exact ⟨fun ys => by simp, by simp⟩
      · exact flattenConnRec_or_shape ts x h1
  | .imply as :: ts, x, h => by
      simp only [flattenConnRec, List.singleton_append, List.mem_cons] at h
      rcases h with rfl | h1
      · exact ⟨fun ys => by simp, by simp⟩
      · exact flattenConnRec_or_shape ts x h1
  | .eq a b :: ts, x, h => by
      simp only [flattenConnRec, List.singleton_append, List.mem_cons] at h
      rcases h with rfl | h1
      · exact ⟨fun ys => by simp, by simp⟩
      · exact flattenConnRec_or_shape ts x h1
  | .distinct as :: ts, x, h => by
      simp only [flattenConnRec, List.singleton_append, List.mem_cons] at h
      rcases h with rfl | h1
      · exact ⟨fun ys => by simp, by simp⟩
      · exact flattenConnRec_or_shape ts x h1
  | .ite a b c2 :: ts, x, h => by
      simp only [flattenConnRec, List.singleton_append, List.mem_cons] at h
      rcases h with rfl | h1
      · exact ⟨fun ys => by simp, by simp⟩
      · exact flattenConnRec_or_shape ts x h1
termination_by l => Term.sizeL l
decreasing_by all_goals (simp only [Term.sizeL, Term.size]; omega)

/-- `simplify_rec` on `and` (lines 221-230): after flattening, the member
list is simplified and the result short-circuits to `false` exactly when a
simplified member is `false`. -/
theorem simplifyStep_and_char (c : Cache) (args0 : List Term) (u : Term) (c1 : Cache)
    (h : simplifyStep c (Term.and args0) = some (u, c1)) :
    ∃ args1, simplifyList c (flattenConn Conn.and args0) = some (args1, c1)
      ∧ ((Term.boolc false ∈ args1 ∧ u = Term.boolc false)
         ∨ (Term.boolc false ∉ args1 ∧ u = Term.and args1)) := by
  simp only [simplifyStep] at h
  cases hsl : simplifyList c (flattenConn Conn.and args0) with
  | none => rw [hsl] at h; exact Option.noConfusion h
  | some p =>
      obtain ⟨args1, c2⟩ := p
      rw [hsl] at h
      simp only at h
      by_cases hany : args1.any (fun v => v = Term.boolc false) = true
      · rw [if_pos hany] at h
        simp only [Option.some_inj, Prod.mk.injEq] at h
        obtain ⟨rfl, rfl⟩ := h
        refine ⟨args1, rfl, Or.inl ⟨?_, rfl⟩⟩
        rcases List.any_eq_true.mp hany with ⟨x, hx, hxe⟩
        rw [of_decide_eq_true hxe] at hx
        exact hx
      · rw [if_neg hany] at h
        simp only [Option.some_inj, Prod.mk.injEq] at h
        obtain ⟨rfl, rfl⟩ := h
        refine ⟨args1, rfl, Or.inr ⟨?_, rfl⟩⟩
        intro hmem
        exact hany (List.any_eq_true.mpr ⟨Term.boolc false, hmem, by simp⟩)

theorem simplifyStep_or_char (c : Cache) (args0 : List Term) (u : Term) (c1 : Cache)
    (h : simplifyStep c (Term.or args0) = some (u, c1)) :
    ∃ args1, simplifyList c (flattenConn Conn.or args0) = some (args1, c1)
      ∧ ((Term.boolc true ∈ args1 ∧ u = Term.boolc true)
         ∨ (Term.boolc true ∉ args1 ∧ u = Term.or args1)) := by
  simp only [simplifyStep] at h
  cases hsl : simplifyList c (flattenConn Conn.or args0) with
  | none => rw [hsl] at h; exact Option.noConfusion h
  | some p =>
      obtain ⟨args1, c2⟩ := p
      rw [hsl] at h
      simp only at h
      by_cases hany : args1.any (fun v => v = Term.boolc true) = true
      · rw [if_pos hany] at h
        simp only [Option.some_inj, Prod.mk.injEq] at h
        obtain ⟨rfl, rfl⟩ := h
        refine ⟨args1, rfl, Or.inl ⟨?_, rfl⟩⟩
        rcases List.any_eq_true.mp hany with ⟨x, hx, hxe⟩
        rw [of_decide_eq_true hxe] at hx
        exact hx
      · rw [if_neg hany] at h
        simp only [Option.some_inj, Prod.mk.injEq] at h
        obtain ⟨rfl, rfl⟩ := h
        refine ⟨args1, rfl, Or.inr ⟨?_, rfl⟩⟩
        intro hmem
        exact hany (List.any_eq_true.mpr ⟨Term.boolc true, hmem, by simp⟩)

/-- **C4 (amended).** `simplify` on `and`/`or`: the argument list is
flattened (no nested same-connective child survives), the neutral element
is dropped, and the list is strictly sorted with no duplicates — all
*before* the members are simplified; the absorbing element is returned
exactly when some *simplified* member equals it.  The original claim's
final conjunct — "no direct argument of a simplified `and` is `true`" —
is false: see the counterexample. -/
theorem c4_and_or_simplification :
    (∀ args x, x ∈ flattenConn Conn.and args → (∀ ys, x ≠ Term.and ys) ∧ x ≠ Term.boolc true)
  ∧ (∀ args x, x ∈ flattenConn Conn.or args → (∀ ys, x ≠ Term.or ys) ∧ x ≠ Term.boolc false)
  ∧ (∀ conn args, List.Pairwise TermLt (flattenConn conn args))
  ∧ (∀ c args0 u c1, simplifyStep c (Term.and args0) = some (u, c1) →
      ∃ args1, simplifyList c (flattenConn Conn.and args0) = some (args1, c1)
        ∧ ((Term.boolc false ∈ args1 ∧ u = Term.boolc false)
           ∨ (Term.boolc false ∉ args1 ∧ u = Term.and args1)))
  ∧ (∀ c args0 u c1, simplifyStep c (Term.or args0) = some (u, c1) →
      ∃ args1, simplifyList c (flattenConn Conn.or args0) = some (args1, c1)
        ∧ ((Term.boolc true ∈ args1 ∧ u = Term.boolc true)
           ∨ (Term.boolc true ∉ args1 ∧ u = Term.or args1))) :=
  ⟨fun args x h => flattenConnRec_and_shape args x (mem_sortDedup.mp h),
   fun args x h => flattenConnRec_or_shape args x (mem_sortDedup.mp h),
   pairwise_flattenConn,
   simplifyStep_and_char,
   simplifyStep_or_char⟩


/-- Witness for the amended C4. -/
theorem c4_witness :
    ((∀ ys, Term.var 0 true ≠ Term.and ys) ∧ Term.var 0 true ≠ Term.boolc true)
  ∧ ((∀ ys, Term.var 0 true ≠ Term.or ys) ∧ Term.var 0 true ≠ Term.boolc false)
  ∧ (∃ args1, simplifyList [] (flattenConn Conn.and [Term.boolc false])
        = some (args1, [(Term.boolc false, Term.boolc false)])
      ∧ ((Term.boolc false ∈ args1 ∧ Term.boolc false = Term.boolc false)
         ∨ (Term.boolc false ∉ args1 ∧ Term.boolc false = Term.and args1)))
  ∧ (∃ args1, simplifyList [] (flattenConn Conn.or [Term.boolc true])
        = some (args1, [(Term.boolc true, Term.boolc true)])
      ∧ ((Term.boolc true ∈ args1 ∧ Term.boolc true = Term.boolc true)
         ∨ (Term.boolc true ∉ args1 ∧ Term.boolc true = Term.or args1))) :=
  ⟨c4_and_or_simplification.1 [Term.var 0 true] (Term.var 0 true)
     (by simp [flattenConn, flattenConnRec, sortDedup, dedupAdj,
       List.insertionSort, List.orderedInsert, termLe, Term.cmp, Term.cmpL, Term.ctorIdx]),
   c4_and_or_simplification.2.1 [Term.var 0 true] (Term.var 0 true)
     (by simp [flattenConn, flattenConnRec, sortDedup, dedupAdj,
       List.insertionSort, List.orderedInsert, termLe, Term.cmp, Term.cmpL, Term.ctorIdx]),
   c4_and_or_simplification.2.2.2.1 [] [Term.boolc false] (Term.boolc false)
     [(Term.boolc false, Term.boolc false)]
     (by simp +decide [simplifyStep, simplifyRec, simplifyList, cacheGet, cacheIns,
       flattenConn, flattenConnRec, sortDedup, dedupAdj,
       List.insertionSort, List.orderedInsert, termLe, Term.cmp, Term.cmpL, Term.ctorIdx]),
   c4_and_or_simplification.2.2.2.2 [] [Term.boolc true] (Term.boolc true)
     [(Term.boolc true, Term.boolc true)]
     (by simp +decide [simplifyStep, simplifyRec, simplifyList, cacheGet, cacheIns,
       flattenConn, flattenConnRec, sortDedup, dedupAdj,
       List.insertionSort, List.orderedInsert, termLe, Term.cmp, Term.cmpL, Term.ctorIdx])⟩

/-- **C4 (counterexample).** `simplify (and [eq x x, y])` returns
`and [y, true]`: the neutral-element drop happens during flattening,
before the members are simplified, so a member that only *simplifies to*
`true` survives as a direct argument. -/
theorem c4_counterexample :
    Tseitin.simplify Tseitin.new
        (Term.and [Term.eq (Term.var 0 false) (Term.var 0 false), Term.var 1 true])
      = some (Term.and [Term.var 1 true, Term.boolc true],
          ⟨[(Term.and [Term.eq (Term.var 0 false) (Term.var 0 false), Term.var 1 true],
             Term.and [Term.var 1 true, Term.boolc true]),
            (Term.eq (Term.var 0 false) (Term.var 0 false), Term.boolc true),
            (Term.var 1 true, Term.var 1 true)], []⟩)
    ∧ Term.boolc true ∈ [Term.var 1 true, Term.boolc true] := by
  constructor
  · simp +decide [Tseitin.simplify, Tseitin.new, simplifyStep, simplifyRec, simplifyList,
      cacheGet, cacheIns, flattenConn, flattenConnRec, sortDedup, dedupAdj,
      List.insertionSort, List.orderedInsert, termLe, Term.cmp, Term.cmpL, Term.ctorIdx]
  · simp

/-! ## C5: `distinct` rewrites -/

/-- **C5.** `simplify` rewrites `distinct` (lines 168-196): `distinct(a)`
becomes `true` (the arguments are not even simplified), `distinct(a,b)`
becomes `¬(a₁ = b₁)` over the simplified arguments, and
`distinct(a₁,…,aₙ)` with `n ≥ 3` becomes the conjunction of the pairwise
disequalities `¬(aᵢ = aⱼ)`, `i < j`, of the simplified arguments — in
particular for three arguments, of exactly three disequalities. -/
theorem c5_distinct_rewrites (c : Cache) :
    (∀ a, simplifyStep c (Term.distinct [a]) = some (Term.boolc true, c))
  ∧ (∀ a b a1 c1 b1 c2, simplifyRec c a = some (a1, c1) →
      simplifyRec c1 b = some (b1, c2) →
      simplifyStep c (Term.distinct [a, b]) = some (Term.not (Term.eq a1 b1), c2))
  ∧ (∀ args args1 c1, 3 ≤ args.length → simplifyList c args = some (args1, c1) →
      simplifyStep c (Term.distinct args) = some (Term.and (pairsDiseq args1), c1))
  ∧ (∀ x y z, pairsDiseq [x, y, z]
      = [Term.not (Term.eq x y), Term.not (Term.eq x z), Term.not (Term.eq y z)]) := by
  refine ⟨fun a => by simp only [simplifyStep], ?_, ?_, fun x y z => by simp [pairsDiseq]⟩
  · intro a b a1 c1 b1 c2 h1 h2
    simp only [simplifyStep, h1, h2]
  · intro args args1 c1 hlen hsl
    rcases args with _ | ⟨x, _ | ⟨y, _ | ⟨z, rest⟩⟩⟩
    · simp at hlen
    · simp at hlen
    · simp at hlen
    · simp only [simplifyStep, hsl]

/-- Witness for C5 at one-, two- and three-argument `distinct`. -/
theorem c5_witness :
    simplifyStep [] (Term.distinct [Term.var 0 false]) = some (Term.boolc true, [])
  ∧ simplifyStep [] (Term.distinct [Term.var 0 false, Term.var 1 false])
      = some (Term.not (Term.eq (Term.var 0 false) (Term.var 1 false)),
          [(Term.var 1 false, Term.var 1 false), (Term.var 0 false, Term.var 0 false)])
  ∧ simplifyStep [] (Term.distinct [Term.var 0 false, Term.var 1 false, Term.var 2 false])
      = some (Term.and (pairsDiseq [Term.var 0 false, Term.var 1 false, Term.var 2 false]),
          [(Term.var 2 false, Term.var 2 false), (Term.var 1 false, Term.var 1 false),
           (Term.var 0 false, Term.var 0 false)]) :=
  ⟨(c5_distinct_rewrites []).1 (Term.var 0 false),
   (c5_distinct_rewrites []).2.1 (Term.var 0 false) (Term.var 1 false)
     (Term.var 0 false) [(Term.var 0 false, Term.var 0 false)]
     (Term.var 1 false) [(Term.var 1 false, Term.var 1 false), (Term.var 0 false, Term.var 0 false)]
     (by simp +decide [simplifyRec, simplifyStep, cacheGet, cacheIns])
     (by simp +decide [simplifyRec, simplifyStep, cacheGet, cacheIns]),
   (c5_distinct_rewrites []).2.2.1 [Term.var 0 false, Term.var 1 false, Term.var 2 false]
     [Term.var 0 false, Term.var 1 false, Term.var 2 false]
     [(Term.var 2 false, Term.var 2 false), (Term.var 1 false, Term.var 1 false),
      (Term.var 0 false, Term.var 0 false)]
     (by simp)
     (by simp +decide [simplifyList, simplifyRec, simplifyStep, cacheGet, cacheIns])⟩

/-! ## C6: the term-to-literal mapping -/

/-- Flipping the starting sign of `unfold_not` flips the resulting sign
and keeps the stripped term. -/
theorem unfoldNot_negSign : ∀ (t : Term) (s : Bool),
    unfoldNot t (!s) = ((unfoldNot t s).1, !(unfoldNot t s).2)
  | .not u, s => by
      have ih := unfoldNot_negSign u s
      show unfoldNot u (!!s) = ((unfoldNot u (!s)).1, !(unfoldNot u (!s)).2)
      rw [Bool.not_not, ih]
      simp
  | .boolc b, s => rfl
  | .tybool, s => rfl
  | .var n bs, s => rfl
  | .app f args bs, s => rfl
  | .and args, s => rfl
  | .or args, s => rfl
  | .imply args, s => rfl
  | .eq a b, s => rfl
  | .distinct args, s => rfl
  | .ite a b c, s => rfl

/-- **C6 (amended).** `term_to_lit` strips a leading `not` into the
literal's sign (negation maps to literal negation), then classifies the
stripped term: Boolean-connective terms (`and`/`or`/`imply`) become
*theory* literals (`TheoryLit::new_t`, lines 101-103 — not pure-Boolean
ones, as the original claim said); equalities, atoms and `ite` become
theory literals; a Boolean constant becomes a pure-Boolean literal; and a
2-argument `distinct(a,b)` becomes the negated theory literal of the
equality `a = b`. -/
theorem c6_term_to_lit :
    (∀ t, termToLit (Term.not t) = (termToLit t).map TLit.negate)
  ∧ (∀ args, termToLit (Term.and args) = some ⟨LKind.t, Term.and args, true⟩)
  ∧ (∀ args, termToLit (Term.or args) = some ⟨LKind.t, Term.or args, true⟩)
  ∧ (∀ args, termToLit (Term.imply args) = some ⟨LKind.t, Term.imply args, true⟩)
  ∧ (∀ n bs, termToLit (Term.var n bs) = some ⟨LKind.t, Term.var n bs, true⟩)
  ∧ (∀ f as bs, termToLit (Term.app f as bs) = some ⟨LKind.t, Term.app f as bs, true⟩)
  ∧ (∀ a b, termToLit (Term.eq a b) = some ⟨LKind.t, Term.eq a b, true⟩)
  ∧ (∀ a b c, termToLit (Term.ite a b c) = some ⟨LKind.t, Term.ite a b c, true⟩)
  ∧ (∀ b, termToLit (Term.boolc b) = some ⟨LKind.b, Term.boolc b, true⟩)
  ∧ (∀ a b, termToLit (Term.distinct [a, b])
      = some (TLit.negate ⟨LKind.t, Term.eq a b, true⟩)) := by
  refine ⟨?_, fun args => rfl, fun args => rfl, fun args => rfl, fun n bs => rfl,
    fun f as bs => rfl, fun a b => rfl, fun a b c => rfl, fun b => rfl, fun a b => rfl⟩
  intro t
  rcases hu : unfoldNot t true with ⟨core, s⟩
  have h2 : unfoldNot (Term.not t) true = (core, !s) := by
    show unfoldNot t false = (core, !s)
    have h3 := unfoldNot_negSign t true
    rw [hu] at h3
    simpa using h3
  unfold termToLit
  rw [h2, hu]
  cases core with
  | distinct args =>
      rcases args with _ | ⟨a, _ | ⟨b, _ | ⟨c2, rest⟩⟩⟩ <;> simp [TLit.negate]
  | _ => simp [TLit.negate]

/-- **C6 (counterexample).** The literal for an `and` term is a *theory*
literal, not a pure-Boolean one. -/
theorem c6_counterexample :
    termToLit (Term.and [Term.var 0 true])
      = some ⟨LKind.t, Term.and [Term.var 0 true], true⟩
    ∧ LKind.t ≠ LKind.b :=
  ⟨rfl, by decide⟩

/-! ## C7: definitional clauses for `and`/`or`/`imply` -/

/-- **C7.** For an `and(x₁…xₙ)` node with output literal `ℓ`, the
emission closure of `clauses` produces exactly the clauses `¬ℓ ∨ xᵢ` for
each `i` plus `¬x₁ ∨ … ∨ ¬xₙ ∨ ℓ`; for an `or(x₁…xₙ)` node exactly
`¬xᵢ ∨ ℓ` for each `i` plus `x₁ ∨ … ∨ xₙ ∨ ¬ℓ`; an `imply` node is
handled as the `or` over the (negated-premise) literal list
`[xₙ, ¬x₁, …, ¬xₙ₋₁]`. -/
theorem c7_connective_clauses :
    (∀ args lits, args.mapM termToLit = some lits →
      nodeClauses (Term.and args)
        = some ((lits.map fun sub =>
              [TLit.negate ⟨LKind.t, Term.and args, true⟩, sub])
            ++ [lits.map TLit.negate ++ [⟨LKind.t, Term.and args, true⟩]]))
  ∧ (∀ args lits, args.mapM termToLit = some lits →
      nodeClauses (Term.or args)
        = some ((lits.map fun sub : TLit =>
              [sub.negate, ⟨LKind.t, Term.or args, true⟩])
            ++ [lits ++ [TLit.negate ⟨LKind.t, Term.or args, true⟩]]))
  ∧ (∀ args (h : args ≠ []) lastLit initLits,
      termToLit (args.getLast h) = some lastLit →
      args.dropLast.mapM termToLit = some initLits →
      nodeClauses (Term.imply args)
        = some (((lastLit :: initLits.map TLit.negate).map fun sub : TLit =>
              [sub.negate, ⟨LKind.t, Term.imply args, true⟩])
            ++ [(lastLit :: initLits.map TLit.negate)
                ++ [TLit.negate ⟨LKind.t, Term.imply args, true⟩]])) := by
  refine ⟨?_, ?_, ?_⟩
  · intro args lits hm
    have hand : termToLit (Term.and args) = some ⟨LKind.t, Term.and args, true⟩ := rfl
    simp only [nodeClauses, hm, hand, Option.bind_eq_bind, Option.some_bind]
  · intro args lits hm
    have hor : termToLit (Term.or args) = some ⟨LKind.t, Term.or args, true⟩ := rfl
    simp only [nodeClauses, hm, hor, Option.bind_eq_bind, Option.some_bind]
  · intro args hne lastLit initLits hlast hinit
    have himp : termToLit (Term.imply args) = some ⟨LKind.t, Term.imply args, true⟩ := rfl
    simp only [nodeClauses, dif_neg hne, hlast, hinit, himp,
      Option.bind_eq_bind, Option.some_bind]

/-- Witness for C7 at binary `and`/`or`/`imply` over two variables. -/
theorem c7_witness :
    nodeClauses (Term.and [Term.var 0 true, Term.var 1 true])
      = some ((([⟨LKind.t, Term.var 0 true, true⟩, ⟨LKind.t, Term.var 1 true, true⟩].map
            fun sub => [TLit.negate ⟨LKind.t, Term.and [Term.var 0 true, Term.var 1 true],
              true⟩, sub])
          ++ [[⟨LKind.t, Term.var 0 true, true⟩, ⟨LKind.t, Term.var 1 true, true⟩].map
                TLit.negate
              ++ [⟨LKind.t, Term.and [Term.var 0 true, Term.var 1 true], true⟩]]))
  ∧ nodeClauses (Term.or [Term.var 0 true, Term.var 1 true])
      = some ((([⟨LKind.t, Term.var 0 true, true⟩, ⟨LKind.t, Term.var 1 true, true⟩].map
            fun sub : TLit => [sub.negate,
              ⟨LKind.t, Term.or [Term.var 0 true, Term.var 1 true], true⟩])
          ++ [[⟨LKind.t, Term.var 0 true, true⟩, ⟨LKind.t, Term.var 1 true, true⟩]
              ++ [TLit.negate ⟨LKind.t, Term.or [Term.var 0 true, Term.var 1 true], true⟩]]))
  ∧ nodeClauses (Term.imply [Term.var 0 true, Term.var 1 true])
      = some ((([⟨LKind.t, Term.var 1 true, true⟩,
            TLit.negate ⟨LKind.t, Term.var 0 true, true⟩].map
            fun sub : TLit => [sub.negate,
              ⟨LKind.t, Term.imply [Term.var 0 true, Term.var 1 true], true⟩])
          ++ [[⟨LKind.t, Term.var 1 true, true⟩, TLit.negate ⟨LKind.t, Term.var 0 true, true⟩]
              ++ [TLit.negate ⟨LKind.t, Term.imply [Term.var 0 true, Term.var 1 true],
                true⟩]])) :=
  ⟨c7_connective_clauses.1 [Term.var 0 true, Term.var 1 true]
     [⟨LKind.t, Term.var 0 true, true⟩, ⟨LKind.t, Term.var 1 true, true⟩] rfl,
   c7_connective_clauses.2.1 [Term.var 0 true, Term.var 1 true]
     [⟨LKind.t, Term.var 0 true, true⟩, ⟨LKind.t, Term.var 1 true, true⟩] rfl,
   c7_connective_clauses.2.2 [Term.var 0 true, Term.var 1 true] (by simp)
     ⟨LKind.t, Term.var 1 true, true⟩ [⟨LKind.t, Term.var 0 true, true⟩] rfl rfl⟩

/-! ## C8: unit clauses for the Boolean constants -/

/-- **C8 (amended).** Encountering the constant `true` emits the unit
clause `[lit(true, true)]` (line 360) and encountering `false` emits
`[lit(false, false)]` — i.e. the clause `[¬false]` (line 364), *not*
`[lit(false, true)]` as the original claim says.  Both unit clauses
force the constants' correct Boolean values: they hold in every model. -/
theorem c8_bool_unit_clauses :
    (nodeClauses (Term.boolc true) = some [[⟨LKind.b, Term.boolc true, true⟩]])
  ∧ (nodeClauses (Term.boolc false) = some [[⟨LKind.b, Term.boolc false, false⟩]])
  ∧ (∀ M : EModel, litTrue M ⟨LKind.b, Term.boolc true, true⟩ = true)
  ∧ (∀ M : EModel, litTrue M ⟨LKind.b, Term.boolc false, false⟩ = true) := by
  refine ⟨rfl, rfl, ?_, ?_⟩
  · intro M
    simp [litTrue, truthy_boolc]
  · intro M
    simp [litTrue, truthy_boolc]

/-- **C8 (counterexample).** The unit clause emitted for `false` is
`[lit(false, false)]`, whose literal differs from the claimed
`lit(false, true)`. -/
theorem c8_counterexample :
    nodeClauses (Term.boolc false) = some [[⟨LKind.b, Term.boolc false, false⟩]]
    ∧ (⟨LKind.b, Term.boolc false, false⟩ : TLit) ≠ ⟨LKind.b, Term.boolc false, true⟩ :=
  ⟨rfl, by decide⟩

/-! ## C9: `clear` invalidates only the traversal memoization -/

/-- **C9.** `Tseitin::clear` (lines 301-307) resets only the DAG-traversal
memoization: the simplifier cache is untouched and `simplify` behaves
identically after `clear` (same results, same cache updates); a term
already in the visited set produces no traversal (hence no re-emission)
before `clear`, while after `clear` the traversal visits the root again,
re-emitting its definitional clauses; and every term cached before
`clear` gets the same `simplify` result after it, without state change. -/
theorem c9_clear_frame :
    (∀ s : TseitinState, (Tseitin.clear s).simpMap = s.simpMap ∧ (Tseitin.clear s).seen = [])
  ∧ (∀ (s : TseitinState) (t : Term),
      Tseitin.simplify (Tseitin.clear s) t
        = (Tseitin.simplify s t).map (fun p => (p.1, Tseitin.clear p.2)))
  ∧ (∀ (seen : List Term) (u : Term), u ∈ seen → dagVisit seen u = ([], seen))
  ∧ (∀ (s : TseitinState) (u : Term),
      ∃ vs seen1, dagVisit (Tseitin.clear s).seen u = (u :: vs, seen1))
  ∧ (∀ (s : TseitinState) (t u : Term), cacheGet s.simpMap t = some u →
      Tseitin.simplify (Tseitin.clear s) t = some (u, Tseitin.clear s)) := by
  refine ⟨fun s => ⟨rfl, rfl⟩, ?_, ?_, ?_, ?_⟩
  · intro s t
    unfold Tseitin.simplify Tseitin.clear
    cases hr : simplifyRec s.simpMap t with
    | none => rfl
    | some p => rfl
  · intro seen u h
    rw [dagVisit, if_pos h]
  · intro s u
    show ∃ vs seen1, dagVisit [] u = (u :: vs, seen1)
    rw [dagVisit, if_neg (List.not_mem_nil u)]
    rcases hdl : dagVisitList [u] (tchildren u) with ⟨vs, seen1⟩
    exact ⟨vs, seen1, rfl⟩
  · intro s t u hget
    unfold Tseitin.simplify
    have hr : simplifyRec (Tseitin.clear s).simpMap t = some (u, s.simpMap) := by
      rw [simplifyRec]
      show (match cacheGet s.simpMap t with
        | some u => some (u, s.simpMap)
        | none => match simplifyStep s.simpMap t with
          | none => none
          | some (u, c1) => some (u, cacheIns c1 t u)) = some (u, s.simpMap)
      rw [hget]
    rw [hr]
    rfl

/-- Witness for C9 at a one-variable state. -/
theorem c9_witness :
    dagVisit [Term.var 0 true] (Term.var 0 true) = ([], [Term.var 0 true])
  ∧ Tseitin.simplify
        (Tseitin.clear ⟨[(Term.var 0 true, Term.var 0 true)], [Term.var 0 true]⟩)
        (Term.var 0 true)
      = some (Term.var 0 true,
          Tseitin.clear ⟨[(Term.var 0 true, Term.var 0 true)], [Term.var 0 true]⟩) :=
  ⟨c9_clear_frame.2.2.1 [Term.var 0 true] (Term.var 0 true) (by simp),
   c9_clear_frame.2.2.2.2 ⟨[(Term.var 0 true, Term.var 0 true)], [Term.var 0 true]⟩
     (Term.var 0 true) (Term.var 0 true) (by simp [cacheGet])⟩

/-! ## C10: `imply` arity precondition -/

/-- **C10.** Simplifying an `imply` with fewer than two arguments hits
`assert!(n >= 2)` (line 244) and aborts — embedded as `none` — at the
rewrite step, in `simplify_rec` when the term is not cached, and in a
`Tseitin::simplify` call on a fresh state. -/
theorem c10_imply_arity (args : List Term) (h : args.length < 2) :
    (∀ c, simplifyStep c (Term.imply args) = none)
  ∧ (∀ c, cacheGet c (Term.imply args) = none → simplifyRec c (Term.imply args) = none)
  ∧ Tseitin.simplify Tseitin.new (Term.imply args) = none := by
  have hstep : ∀ c, simplifyStep c (Term.imply args) = none := by
    intro c
    simp only [simplifyStep, if_pos h]
  have hrec : ∀ c, cacheGet c (Term.imply args) = none →
      simplifyRec c (Term.imply args) = none := by
    intro c hget
    rw [simplifyRec]
    show (match cacheGet c (Term.imply args) with
      | some u => some (u, c)
      | none => match simplifyStep c (Term.imply args) with
        | none => none
        | some (u, c1) => some (u, cacheIns c1 (Term.imply args) u)) = none
    rw [hget, hstep c]
  refine ⟨hstep, hrec, ?_⟩
  unfold Tseitin.simplify
  rw [hrec Tseitin.new.simpMap rfl]

/-- Witness for C10 at the unary `imply`. -/
theorem c10_witness :
    [Term.var 0 true].length < 2
  ∧ Tseitin.simplify Tseitin.new (Term.imply [Term.var 0 true]) = none :=
  ⟨by decide, (c10_imply_arity [Term.var 0 true] (by decide)).2.2⟩

/-! ## C1: incremental CC vs. naive CC agreement on `final_check`

`cc.rs` and `naive_cc.rs` are not under the sources; this section is
modelled from the spec (§4.1-§4.4) and the property-test driver
(src/cc/tests/test_cc.rs, `proptest_cc_is_correct`, lines 316-449).

Modelled from the spec: satisfiability of a merge set is decided by a
from-scratch congruence closure (§4.4 "closing the asserted literal set
under reflexivity, symmetry, transitivity, and congruence from scratch"):
the universe is the set of subterms of all merged terms plus the Boolean
constants; classes are refined to a fixpoint by asserted merges and
congruence; the state is inconsistent when `true` and `false` share a
class, or when some equality term `eq a b` shares a class with `false`
(a disequality asserted at merge time, §4.3 step 3 — the driver merges
`eq t1 t2` with `false` for `AssertNeq`) while `a` and `b` share one. -/

mutual

def Term.subterms : Term → List Term
  | .boolc b => [.boolc b]
  | .tybool => [.tybool]
  | .var n bs => [.var n bs]
  | .app f args bs => .app f args bs :: (Term.subterms f ++ Term.subtermsL args)
  | .not a => .not a :: Term.subterms a
  | .and args => .and args :: Term.subtermsL args
  | .or args => .or args :: Term.subtermsL args
  | .imply args => .imply args :: Term.subtermsL args
  | .eq a b => .eq a b :: (Term.subterms a ++ Term.subterms b)
  | .distinct args => .distinct args :: Term.subtermsL args
  | .ite a b c => .ite a b c :: (Term.subterms a ++ Term.subterms b ++ Term.subterms c)

def Term.subtermsL : List Term → List Term
  | [] => []
  | t :: ts => Term.subterms t ++ Term.subtermsL ts

end

def sameClass (cls : List (List Term)) (a b : Term) : Bool :=
  cls.any (fun c => c.contains a && c.contains b)

def congBL (cls : List (List Term)) : List Term → List Term → Bool
  | [], [] => true
  | a :: as, b :: bs => sameClass cls a b && congBL cls as bs
  | _, _ => false

def congB (cls : List (List Term)) : Term → Term → Bool
  | .app f as bf, .app g bs bg => sameClass cls f g && congBL cls as bs && (bf == bg)
  | .not a, .not b => sameClass cls a b
  | .and as, .and bs => congBL cls as bs
  | .or as, .or bs => congBL cls as bs
  | .imply as, .imply bs => congBL cls as bs
  | .eq a b, .eq a2 b2 => sameClass cls a a2 && sameClass cls b b2
  | .distinct as, .distinct bs => congBL cls as bs
  | .ite a b c, .ite a2 b2 c2 =>
      sameClass cls a a2 && sameClass cls b b2 && sameClass cls c c2
  | _, _ => false

def classOf (cls : List (List Term)) (a : Term) : List Term :=
  (cls.find? (fun c => c.contains a)).getD [a]

def unionClasses (cls : List (List Term)) (a b : Term) : List (List Term) :=
  (classOf cls a ++ classOf cls b)
    :: cls.filter (fun c => !(c.contains a) && !(c.contains b))

def findMerge (ps : List (Term × Term)) (univ : List Term)
    (cls : List (List Term)) : Option (Term × Term) :=
  match ps.find? (fun p => !sameClass cls p.1 p.2) with
  | some p => some p
  | none => univ.findSome? (fun t =>
      (univ.find? (fun u => congB cls t u && !sameClass cls t u)).map (fun u => (t, u)))

def closeRec (fuel : Nat) (ps : List (Term × Term)) (univ : List Term)
    (cls : List (List Term)) : List (List Term) :=
  match fuel with
  | 0 => cls
  | fuel + 1 =>
    match findMerge ps univ cls with
    | none => cls
    | some (a, b) => closeRec fuel ps univ (unionClasses cls a b)

def eufUniv (ps : List (Term × Term)) : List Term :=
  (Term.subtermsL (ps.map Prod.fst ++ ps.map Prod.snd)
    ++ [Term.boolc true, Term.boolc false]).dedup

def eufClasses (ps : List (Term × Term)) : List (List Term) :=
  let univ := eufUniv ps
  closeRec univ.length ps univ (univ.map (fun t => [t]))

def eufConsistent (ps : List (Term × Term)) : Bool :=
  let univ := eufUniv ps
  let cls := eufClasses ps
  !sameClass cls (Term.boolc true) (Term.boolc false)
  && univ.all (fun t =>
      match t with
      | .eq a b => !(sameClass cls t (Term.boolc false) && sameClass cls a b)
      | _ => true)

/-- The operations of the property test (test_cc.rs lines 247-261):
`AssertNeq t1 t2` is fed to both sides as the merge of the term
`eq t1 t2` with `false` (lines 377-382). -/
inductive CCOp where
  | pushLevel
  | popLevels (n : Nat)
  | assertEq (t1 t2 : Term)
  | assertNeq (t1 t2 : Term)
  | checkPartial
  | checkFinal

/-- Modelled from the spec (§4.1): the incremental CC's backtrack stack,
"a growable sequence of undo actions ... Levels are delimited by markers.
`push_level` appends a marker. `pop_levels(n)` pops markers until `n`
have been crossed". -/
inductive UndoEntry where
  | mark
  | umerge (t u : Term)

structure CCState where
  trail : List UndoEntry

/-- Modelled from the spec (§4.4): the naive CC keeps the asserted merges
per level and recomputes the closure from scratch at each `final_check`. -/
structure NCCState where
  levels : List (List (Term × Term))

def CCState.empty : CCState := ⟨[]⟩

def NCCState.empty : NCCState := ⟨[[]]⟩

def dropUntilMarks : Nat → List UndoEntry → List UndoEntry
  | 0, tr => tr
  | _ + 1, [] => []
  | n + 1, UndoEntry.mark :: tr => dropUntilMarks n tr
  | n + 1, UndoEntry.umerge _ _ :: tr => dropUntilMarks (n + 1) tr

def ccApply (s : CCState) : CCOp → CCState
  | CCOp.pushLevel => ⟨UndoEntry.mark :: s.trail⟩
  | CCOp.popLevels n => ⟨dropUntilMarks n s.trail⟩
  | CCOp.assertEq t1 t2 => ⟨UndoEntry.umerge t1 t2 :: s.trail⟩
  | CCOp.assertNeq t1 t2 =>
      ⟨UndoEntry.umerge (Term.eq t1 t2) (Term.boolc false) :: s.trail⟩
  | CCOp.checkPartial => s
  | CCOp.checkFinal => s

def nccApply (s : NCCState) : CCOp → NCCState
  | CCOp.pushLevel => ⟨[] :: s.levels⟩
  | CCOp.popLevels n => ⟨s.levels.drop n⟩
  | CCOp.assertEq t1 t2 =>
      match s.levels with
      | [] => ⟨[[(t1, t2)]]⟩
      | l :: rest => ⟨((t1, t2) :: l) :: rest⟩
  | CCOp.assertNeq t1 t2 =>
      match s.levels with
      | [] => ⟨[[(Term.eq t1 t2, Term.boolc false)]]⟩
      | l :: rest => ⟨((Term.eq t1 t2, Term.boolc false) :: l) :: rest⟩
  | CCOp.checkPartial => s
  | CCOp.checkFinal => s

def ccRun : CCState → List CCOp → CCState
  | s, [] => s
  | s, op :: ops => ccRun (ccApply s op) ops

def nccRun : NCCState → List CCOp → NCCState
  | s, [] => s
  | s, op :: ops => nccRun (nccApply s op) ops

def opsValid : Nat → List CCOp → Bool
  | _, [] => true
  | lvl, CCOp.pushLevel :: ops => opsValid (lvl + 1) ops
  | lvl, CCOp.popLevels n :: ops => decide (n ≤ lvl) && opsValid (lvl - n) ops
  | lvl, CCOp.assertEq _ _ :: ops => opsValid lvl ops
  | lvl, CCOp.assertNeq _ _ :: ops => opsValid lvl ops
  | lvl, CCOp.checkPartial :: ops => opsValid lvl ops
  | lvl, CCOp.checkFinal :: ops => opsValid lvl ops

def levelAfter : Nat → List CCOp → Nat
  | lvl, [] => lvl
  | lvl, CCOp.pushLevel :: ops => levelAfter (lvl + 1) ops
  | lvl, CCOp.popLevels n :: ops => levelAfter (lvl - n) ops
  | lvl, CCOp.assertEq _ _ :: ops => levelAfter lvl ops
  | lvl, CCOp.assertNeq _ _ :: ops => levelAfter lvl ops
  | lvl, CCOp.checkPartial :: ops => levelAfter lvl ops
  | lvl, CCOp.checkFinal :: ops => levelAfter lvl ops

def entriesOf (l : List (Term × Term)) : List UndoEntry :=
  l.map (fun p => UndoEntry.umerge p.1 p.2)

def encodeLevels : List (List (Term × Term)) → List UndoEntry
  | [] => []
  | [l] => entriesOf l
  | l1 :: l2 :: rest => entriesOf l1 ++ UndoEntry.mark :: encodeLevels (l2 :: rest)

def umergeOf : UndoEntry → Option (Term × Term)
  | UndoEntry.mark => none
  | UndoEntry.umerge t u => some (t, u)

def ccMerges (s : CCState) : List (Term × Term) := s.trail.filterMap umergeOf

/-- `final_check` of the incremental CC: the verdict on the merges
recovered from the undo trail. -/
def ccFinalCheck (s : CCState) : Bool := eufConsistent (ccMerges s)

/-- `final_check` of the naive CC: the verdict recomputed from the
per-level merge lists. -/
def nccFinalCheck (ns : NCCState) : Bool := eufConsistent ns.levels.flatten

theorem encode_push : ∀ levels : List (List (Term × Term)), levels ≠ [] →
    encodeLevels ([] :: levels) = UndoEntry.mark :: encodeLevels levels
  | [], h => absurd rfl h
  | _ :: _, _ => rfl

theorem encode_merge : ∀ (p : Term × Term) (l : List (Term × Term))
    (rest : List (List (Term × Term))),
    encodeLevels ((p :: l) :: rest) = UndoEntry.umerge p.1 p.2 :: encodeLevels (l :: rest)
  | p, l, [] => rfl
  | p, l, _ :: _ => rfl

theorem dropUntil_entries : ∀ (n : Nat) (l : List (Term × Term)) (tr : List UndoEntry),
    dropUntilMarks (n + 1) (entriesOf l ++ tr) = dropUntilMarks (n + 1) tr
  | _, [], _ => rfl
  | n, _ :: l, tr => dropUntil_entries n l tr

theorem dropUntil_encode : ∀ (n : Nat) (levels : List (List (Term × Term))),
    n < levels.length →
    dropUntilMarks n (encodeLevels levels) = encodeLevels (levels.drop n)
  | 0, _, _ => by simp [dropUntilMarks]
  | n + 1, [], h => by simp at h
  | n + 1, [_], h => by simp at h
  | n + 1, l1 :: l2 :: rest, h => by
      show dropUntilMarks (n + 1) (entriesOf l1 ++ UndoEntry.mark :: encodeLevels (l2 :: rest))
        = encodeLevels ((l2 :: rest).drop n)
      rw [dropUntil_entries]
      show dropUntilMarks n (encodeLevels (l2 :: rest)) = encodeLevels ((l2 :: rest).drop n)
      exact dropUntil_encode n (l2 :: rest) (Nat.lt_of_succ_lt_succ h)

theorem entries_merges : ∀ l : List (Term × Term), (entriesOf l).filterMap umergeOf = l
  | [] => rfl
  | p :: l => by
      simp only [entriesOf, List.map_cons, List.filterMap_cons]
      show (p.1, p.2) :: (entriesOf l).filterMap umergeOf = p :: l
      rw [entries_merges l]

theorem merges_encode : ∀ levels : List (List (Term × Term)),
    (encodeLevels levels).filterMap umergeOf = levels.flatten
  | [] => rfl
  | [l] => by
      show (entriesOf l).filterMap umergeOf = l ++ List.flatten []
      rw [entries_merges l]
      simp
  | l1 :: l2 :: rest => by
      show (entriesOf l1 ++ UndoEntry.mark :: encodeLevels (l2 :: rest)).filterMap umergeOf
        = l1 ++ (l2 :: rest).flatten
      rw [List.filterMap_append, entries_merges l1, List.filterMap_cons]
      show l1 ++ (encodeLevels (l2 :: rest)).filterMap umergeOf = l1 ++ (l2 :: rest).flatten
      rw [merges_encode (l2 :: rest)]

/-- The undo-trail state of the incremental CC simulates the level-list
state of the naive CC through every valid operation sequence. -/
theorem run_sim : ∀ (ops : List CCOp) (lvl : Nat) (s : CCState) (ns : NCCState),
    opsValid lvl ops = true →
    s.trail = encodeLevels ns.levels →
    ns.levels.length = lvl + 1 →
    (ccRun s ops).trail = encodeLevels ((nccRun ns ops).levels)
      ∧ ((nccRun ns ops).levels).length = levelAfter lvl ops + 1
  | [], lvl, s, ns, _, htr, hlen => ⟨htr, hlen⟩
  | CCOp.pushLevel :: ops, lvl, s, ns, hv, htr, hlen => by
      have hne : ns.levels ≠ [] := by
        intro h0
        rw [h0] at hlen
        simp at hlen
      refine run_sim ops (lvl + 1) (ccApply s CCOp.pushLevel) (nccApply ns CCOp.pushLevel)
        hv ?_ ?_
      · show UndoEntry.mark :: s.trail = encodeLevels ([] :: ns.levels)
        rw [encode_push ns.levels hne, htr]
      · show ([] :: ns.levels).length = (lvl + 1) + 1
        simp [hlen]
  | CCOp.popLevels n :: ops, lvl, s, ns, hv, htr, hlen => by
      simp only [opsValid, Bool.and_eq_true, decide_eq_true_eq] at hv
      obtain ⟨hn, hv⟩ := hv
      refine run_sim ops (lvl - n) (ccApply s (CCOp.popLevels n)) (nccApply ns (CCOp.popLevels n))
        hv ?_ ?_
      · show dropUntilMarks n s.trail = encodeLevels (ns.levels.drop n)
        rw [htr]
        exact dropUntil_encode n ns.levels (by omega)
      · show (ns.levels.drop n).length = (lvl - n) + 1
        simp [hlen]
        omega
  | CCOp.assertEq t1 t2 :: ops, lvl, s, ns, hv, htr, hlen => by
      rcases hns : ns.levels with _ | ⟨l, rest⟩
      · rw [hns] at hlen
        simp at hlen
      · have happ : (nccApply ns (CCOp.assertEq t1 t2)).levels = ((t1, t2) :: l) :: rest := by
          simp [nccApply, hns]
        refine run_sim ops lvl (ccApply s (CCOp.assertEq t1 t2)) (nccApply ns (CCOp.assertEq t1 t2))
          hv ?_ ?_
        · show UndoEntry.umerge t1 t2 :: s.trail = _
          rw [happ, encode_merge (t1, t2) l rest, htr, hns]
        · rw [happ]
          rw [hns] at hlen
          simpa using hlen
  | CCOp.assertNeq t1 t2 :: ops, lvl, s, ns, hv, htr, hlen => by
      rcases hns : ns.levels with _ | ⟨l, rest⟩
      · rw [hns] at hlen
        simp at hlen
      · have happ : (nccApply ns (CCOp.assertNeq t1 t2)).levels
            = ((Term.eq t1 t2, Term.boolc false) :: l) :: rest := by
          simp [nccApply, hns]
        refine run_sim ops lvl (ccApply s (CCOp.assertNeq t1 t2)) (nccApply ns (CCOp.assertNeq t1 t2))
          hv ?_ ?_
        · show UndoEntry.umerge (Term.eq t1 t2) (Term.boolc false) :: s.trail = _
          rw [happ, encode_merge (Term.eq t1 t2, Term.boolc false) l rest, htr, hns]
        · rw [happ]
          rw [hns] at hlen
          simpa using hlen
  | CCOp.checkPartial :: ops, lvl, s, ns, hv, htr, hlen =>
      run_sim ops lvl s ns hv htr hlen
  | CCOp.checkFinal :: ops, lvl, s, ns, hv, htr, hlen =>
      run_sim ops lvl s ns hv htr hlen

/-- **C1.** For every valid sequence of push/pop/merge operations, fed
identically to the incremental CC (undo-trail backtracking) and the
reference naive CC (per-level recomputation), every `final_check` —
in particular each one occurring along the sequence, since every valid
prefix is itself a valid sequence — returns the same satisfiability
verdict on both sides. -/
theorem c1_cc_naive_final_agree (ops : List CCOp) (hv : opsValid 0 ops = true) :
    ccFinalCheck (ccRun CCState.empty ops) = nccFinalCheck (nccRun NCCState.empty ops) := by
  obtain ⟨htr, -⟩ := run_sim ops 0 CCState.empty NCCState.empty hv rfl rfl
  unfold ccFinalCheck nccFinalCheck ccMerges
  rw [htr, merges_encode]

/-- Sanity checks of the congruence-closure decision core: empty and
free merges are consistent; `true = false`, a merged pair asserted
disequal, and a congruence-propagated disequality violation are not. -/
theorem eufConsistent_examples :
    eufConsistent [] = true
  ∧ eufConsistent [(Term.var 0 false, Term.var 1 false)] = true
  ∧ eufConsistent [(Term.boolc true, Term.boolc false)] = false
  ∧ eufConsistent [(Term.var 0 false, Term.var 1 false),
      (Term.eq (Term.var 0 false) (Term.var 1 false), Term.boolc false)] = false
  ∧ eufConsistent
      [(Term.var 0 false, Term.var 1 false),
       (Term.eq (Term.app (Term.var 9 false) [Term.var 0 false] false)
                (Term.app (Term.var 9 false) [Term.var 1 false] false),
        Term.boolc false)] = false := by
  refine ⟨by decide, by decide, by decide, by decide, by decide⟩

/-- Witness for C1 on a sequence exercising push, merge, final-check,
backtracking and a disequality assertion. -/
theorem c1_witness :
    opsValid 0 [CCOp.pushLevel, CCOp.assertEq (Term.var 0 false) (Term.var 1 false),
      CCOp.checkFinal, CCOp.popLevels 1,
      CCOp.assertNeq (Term.var 0 false) (Term.var 1 false), CCOp.checkFinal] = true
  ∧ ccFinalCheck (ccRun CCState.empty
      [CCOp.pushLevel, CCOp.assertEq (Term.var 0 false) (Term.var 1 false),
       CCOp.checkFinal, CCOp.popLevels 1,
       CCOp.assertNeq (Term.var 0 false) (Term.var 1 false), CCOp.checkFinal])
    = nccFinalCheck (nccRun NCCState.empty
      [CCOp.pushLevel, CCOp.assertEq (Term.var 0 false) (Term.var 1 false),
       CCOp.checkFinal, CCOp.popLevels 1,
       CCOp.assertNeq (Term.var 0 false) (Term.var 1 false), CCOp.checkFinal]) :=
  ⟨by decide, c1_cc_naive_final_agree
    [CCOp.pushLevel, CCOp.assertEq (Term.var 0 false) (Term.var 1 false),
     CCOp.checkFinal, CCOp.popLevels 1,
     CCOp.assertNeq (Term.var 0 false) (Term.var 1 false), CCOp.checkFinal] (by decide)⟩
